import Mathlib

/-!
# Verification of the `useMarked` markdown pipeline (vuecore)

Shallow embedding of the markdown-to-HTML conversion pipeline:
the custom `marked` renderer for code blocks and links, the heading
post-processor (`getHtmlStr`'s global regex replace), the flat anchor
collector, the anchor tree builder (`state.anchorsTree`), and the
`useMarked` entry point.

JavaScript strings are modelled as `List Char` (wrapped in `String`
at the interfaces).  Each JavaScript regular-expression operation of
the source is modelled by an executable Lean function implementing the
backtracking semantics of that concrete pattern; the derivation from
the pattern is documented at every definition.
-/

namespace Vuecore

/-! ## Character classes -/

/-- JavaScript `\s` character class, restricted to the code points this
pipeline can meet (ASCII whitespace plus NBSP and the BOM).  Used by the
patterns `\s{1}`, `^\s*$`, `\s+`, `^\s*|\s*$` and `^[\s-]*|[\s-]*$`. -/
def isJsWs (c : Char) : Bool :=
  c = ' ' || c = '\t' || c = '\n' || c = '\r' ||
  c = Char.ofNat 0x0B || c = Char.ofNat 0x0C ||
  c = Char.ofNat 0xA0 || c = Char.ofNat 0xFEFF

/-- JavaScript `\w` character class: `[A-Za-z0-9_]`. -/
def isWordChar (c : Char) : Bool :=
  ('a' ≤ c && c ≤ 'z') || ('A' ≤ c && c ≤ 'Z') || ('0' ≤ c && c ≤ '9') || c = '_'

/-- Case-insensitive character comparison, as used by the `i` regex flag. -/
def ciEq (a b : Char) : Bool :=
  a.toLower = b.toLower

/-- JavaScript line terminators, the characters *not* matched by `.`
(without the `s` flag): `\n` and `\r` (the astral separators U+2028 and
U+2029 are irrelevant here and omitted). -/
def isLineTerm (c : Char) : Bool :=
  c = '\n' || c = '\r'

/-- Modelled from the spec: the Unicode emoji pattern supplied by the
external `emoji-regex` collaborator, approximated as a character class
(emoji blocks, variation selector 16 and zero-width joiner).  The
source builds this regex with `emojiRegexCreater()` and uses it only to
delete matches, so deleting the matching characters is faithful. -/
def isEmojiChar (c : Char) : Bool :=
  (0x1F000 ≤ c.toNat && c.toNat ≤ 0x1FAFF) ||
  (0x2600 ≤ c.toNat && c.toNat ≤ 0x27BF) ||
  c.toNat = 0xFE0F || c.toNat = 0x200D

/-! ## Data model -/

/-- `Anchor`: one entry of `state.anchorsFlat` — `{title, href, level}`.
The source pushes the captured level digit; we record its numeric value. -/
structure Anchor where
  title : String
  href : String
  level : Nat
  deriving Repr, DecidableEq

/-- `AnchorNode`: a top-level node of `state.anchorsTree` — an anchor
spread together with a `children` array.  The children pushed by the
source are plain anchor copies (`{ ...cur }`), so one level only. -/
structure AnchorNode where
  title : String
  href : String
  level : Nat
  children : List Anchor
  deriving Repr, DecidableEq

/-- `{ ...cur, children: [] }`. -/
def Anchor.toNode (a : Anchor) : AnchorNode :=
  ⟨a.title, a.href, a.level, []⟩

/-! ## Anchor tree builder (`state.anchorsTree`) -/

/-- `res[res.length - 1].children.push({ ...cur })`: append `a` to the
children of the last node of the (nonempty) forest. -/
def pushChildLast : List AnchorNode → Anchor → List AnchorNode
  | [], _ => []
  | [n], a => [{ n with children := n.children ++ [a] }]
  | n :: m :: rest, a => n :: pushChildLast (m :: rest) a

/-- One step of the reduce in `state.anchorsTree`:
`if (!res.length || cur.level <= res[0].level) res.push({...cur, children: []})
 else res[res.length - 1].children.push({...cur})`. -/
def treeStep (res : List AnchorNode) (cur : Anchor) : List AnchorNode :=
  match res with
  | [] => [cur.toNode]
  | first :: _ =>
    if cur.level ≤ first.level then res ++ [cur.toNode]
    else pushChildLast res cur

/-- `state.anchorsTree`: `list.reduce(step, [])`. -/
def anchorsTree (list : List Anchor) : List AnchorNode :=
  list.foldl treeStep []

/-- Spec-side rendering of the claim's words for the anchor tree builder:
the forest is kept as the already-finished top-level nodes together with
the most-recently-added top-level node held apart; a new anchor opens a
new top-level node (with empty children) when the forest is empty or its
level is ≤ the level of the first top-level node, and otherwise becomes a
child of the most-recently-added top-level node. -/
def anchorsTreeSpecAux : List AnchorNode → AnchorNode → List Anchor → List AnchorNode
  | done, last, [] => done ++ [last]
  | done, last, a :: rest =>
    let first := match done with
      | [] => last
      | f :: _ => f
    if a.level ≤ first.level then
      anchorsTreeSpecAux (done ++ [last]) a.toNode rest
    else
      anchorsTreeSpecAux done { last with children := last.children ++ [a] } rest

/-- Spec-side anchor tree: empty forest for an empty list, else the
left-to-right reduction described by the claim. -/
def anchorsTreeSpec : List Anchor → List AnchorNode
  | [] => []
  | a :: rest => anchorsTreeSpecAux [] a.toNode rest

lemma pushChildLast_append_last (done : List AnchorNode) (last : AnchorNode) (a : Anchor) :
    pushChildLast (done ++ [last]) a =
      done ++ [{ last with children := last.children ++ [a] }] := by
  induction done with
  | nil => rfl
  | cons n rest ih =>
    cases rest with
    | nil => simp [pushChildLast]
    | cons m rest' => simpa [pushChildLast] using ih

lemma foldl_treeStep_eq_specAux (l : List Anchor) :
    ∀ (done : List AnchorNode) (last : AnchorNode),
      l.foldl treeStep (done ++ [last]) = anchorsTreeSpecAux done last l := by
  induction l with
  | nil => intro done last; rfl
  | cons a rest ih =>
    intro done last
    simp only [List.foldl_cons, anchorsTreeSpecAux]
    have hfirst : (done ++ [last]).head (by simp) =
        (match done with | [] => last | f :: _ => f) := by
      cases done <;> rfl
    cases done with
    | nil =>
      simp only [List.nil_append]
      by_cases h : a.level ≤ last.level
      · simp only [treeStep, h, if_pos]
        have := ih [last] a.toNode
        simpa using this
      · simp only [treeStep, h, if_neg, not_false_iff]
        have := ih [] { last with children := last.children ++ [a] }
        simp only [pushChildLast]
        simpa using this
    | cons f dr =>
      simp only [List.cons_append, treeStep]
      by_cases h : a.level ≤ f.level
      · simp only [h, if_pos]
        have := ih ((f :: dr) ++ [last]) a.toNode
        simpa using this
      · simp only [h, if_neg, not_false_iff]
        rw [← List.cons_append, pushChildLast_append_last]
        have := ih (f :: dr) { last with children := last.children ++ [a] }
        simpa using this

/-- The code's reduce agrees with the spec-side description everywhere. -/
lemma anchorsTree_eq_spec (l : List Anchor) : anchorsTree l = anchorsTreeSpec l := by
  cases l with
  | nil => rfl
  | cons a rest =>
    show (a :: rest).foldl treeStep [] = anchorsTreeSpecAux [] a.toNode rest
    have : treeStep [] a = [] ++ [a.toNode] := rfl
    rw [List.foldl_cons, this, foldl_treeStep_eq_specAux]

/-! ## Basic JavaScript string operations -/

/-- Split at the first occurrence of `c`: `some (pre, rest)` with
`s = pre ++ c :: rest` and `c ∉ pre`, or `none` when `c` does not occur.
This is the semantics of a greedy negated class followed by the literal,
e.g. `[^>]*>` or `[^"]*"`. -/
def takeUntilChar (c : Char) : List Char → Option (List Char × List Char)
  | [] => none
  | x :: xs =>
    if x = c then some ([], xs)
    else (takeUntilChar c xs).map (fun p => (x :: p.1, p.2))

lemma takeUntilChar_sound {c : Char} :
    ∀ {s pre rest : List Char}, takeUntilChar c s = some (pre, rest) →
      s = pre ++ c :: rest ∧ c ∉ pre := by
  intro s
  induction s with
  | nil => intro pre rest h; simp [takeUntilChar] at h
  | cons x xs ih =>
    intro pre rest h
    by_cases hx : x = c
    · rw [takeUntilChar, if_pos hx] at h
      obtain ⟨rfl, rfl⟩ : pre = [] ∧ xs = rest := by
        injection h with h'
        injection h' with h1 h2
        exact ⟨h1.symm, h2⟩
      simp [hx]
    · rw [takeUntilChar, if_neg hx, Option.map_eq_some'] at h
      obtain ⟨⟨p, r⟩, hp, he⟩ := h
      obtain ⟨h1, h2⟩ := ih hp
      obtain ⟨rfl, rfl⟩ : pre = x :: p ∧ rest = r := by
        injection he with e1 e2
        exact ⟨e1.symm, e2.symm⟩
      refine ⟨by simp [h1], ?_⟩
      simp only [List.mem_cons, not_or]
      exact ⟨fun hc => hx hc.symm, h2⟩

lemma takeUntilChar_complete {c : Char} :
    ∀ {pre : List Char} (rest : List Char), c ∉ pre →
      takeUntilChar c (pre ++ c :: rest) = some (pre, rest) := by
  intro pre
  induction pre with
  | nil => intro rest _; simp [takeUntilChar]
  | cons x xs ih =>
    intro rest hc
    simp only [List.mem_cons, not_or] at hc
    have hx : ¬ (x = c) := fun h => hc.1 h.symm
    rw [List.cons_append, takeUntilChar, if_neg hx, ih rest hc.2]
    rfl

/-- Trim of both ends by a character predicate.  `s.replace(/^P*|P*$/g, '')`
removes exactly the maximal leading run and the maximal trailing run of
`P` characters (the leading alternative matches once at position 0; the
trailing alternative first matches at the start of the trailing run and
consumes it to the end). -/
def trimBy (p : Char → Bool) (s : List Char) : List Char :=
  ((s.dropWhile p).reverse.dropWhile p).reverse

/-- `.replace(/^\s*|\s*$/g, '')` — trim whitespace. -/
def trimWs (s : List Char) : List Char := trimBy isJsWs s

/-- `.replace(/^[\s-]*|[\s-]*$/g, '')` — trim whitespace and hyphens. -/
def trimWsHyphen (s : List Char) : List Char :=
  trimBy (fun c => isJsWs c || c = '-') s

/-- `id.replace(emojiRegex, '')` — delete every emoji character. -/
def stripEmoji (s : List Char) : List Char :=
  s.filter (fun c => !isEmojiChar c)

lemma length_dropWhile_le (p : Char → Bool) (l : List Char) :
    (l.dropWhile p).length ≤ l.length := by
  induction l with
  | nil => simp [List.dropWhile]
  | cons x xs ih =>
    by_cases h : p x
    · rw [List.dropWhile_cons_of_pos h]
      exact le_trans ih (Nat.le_succ _)
    · rw [List.dropWhile_cons_of_neg h]

/-- `.replace(/\s+/g, '-')` — each maximal whitespace run (the greedy
`\s+` match) is replaced by a single hyphen.  The fold keeps a flag
telling whether the previous character was inside a whitespace run. -/
def hyphenateWs (l : List Char) : List Char :=
  (l.foldl
    (fun acc c =>
      if isJsWs c then (if acc.2 then acc.1 else acc.1 ++ ['-'], true)
      else (acc.1 ++ [c], false))
    ([], false)).1

/-- `.toLowerCase()`, modelled with `Char.toLower` (ASCII case folding —
all inputs below stay in ranges where the two agree). -/
def lowerList (s : List Char) : List Char := s.map Char.toLower

/-- First occurrence replace with a string pattern, the semantics of
JavaScript `s.replace('vue', 'html')`: only the leftmost occurrence of
the literal pattern is replaced. -/
def replaceFirstStr (pat repl : List Char) : List Char → List Char
  | [] => []
  | c :: cs =>
    if pat.isPrefixOf (c :: cs) then repl ++ (c :: cs).drop pat.length
    else c :: replaceFirstStr pat repl cs

/-! ## Code block renderer (`renderer.code`) -/

/-- JavaScript `split(',')` on the character list: always at least one
(possibly empty) field, one more field per comma. -/
def splitOnComma : List Char → List (List Char)
  | [] => [[]]
  | c :: cs =>
    if c = ',' then [] :: splitOnComma cs
    else
      match splitOnComma cs with
      | [] => [[c]]
      | t :: ts => (c :: t) :: ts

/-- `infostring.split(',')`. -/
def splitLangs (infostring : String) : List String :=
  (splitOnComma infostring.data).map String.mk

/-- `/^\s*$/.test(cur)` — the token is empty or all-whitespace. -/
def isBlankTok (s : String) : Bool :=
  s.data.all isJsWs

/-- The reduce inside `renderer.code` building the class tokens:
`/^\s*$/.test(cur) && arr.length === 1 ? res.concat('language-none')
 : res.concat('language-' + cur)`. -/
def langsPrefixToks (langs : List String) : List String :=
  langs.foldl
    (fun res cur =>
      if isBlankTok cur && langs.length == 1 then res ++ ["language-none"]
      else res ++ ["language-" ++ cur])
    []

/-- `langsPrefix`: the class tokens joined by a single space. -/
def langsPrefix (infostring : String) : String :=
  String.intercalate " " (langsPrefixToks (splitLangs infostring))

/-- The match count of `code.match(/\n(?!$)/g)`: the number of newline
characters not in final position (`$` without the `m` flag matches only
at the very end of the string). -/
def nlNotAtEndCount : List Char → Nat
  | [] => 0
  | [_] => 0
  | c :: cs => (if c = '\n' then 1 else 0) + nlNotAtEndCount cs

/-- `const linesNum = match ? match.length + 1 : 1;` — `match` is `null`
exactly when the count is zero. -/
def linesNum (code : String) : Nat :=
  match nlNotAtEndCount code.data with
  | 0 => 1
  | n => n + 1

/-- `new Array(len).join(sep)`: an array of `len` empty slots joined by
`sep` is `sep` repeated `len - 1` times. -/
def jsArrayJoin (len : Nat) (sep : String) : String :=
  String.join (List.replicate (len - 1) sep)

/-- `lineNumbersWrapper`: the gutter element holding the empty markers. -/
def lineNumbersWrapper (code : String) : String :=
  "<span aria-hidden=\"true\" class=\"line-numbers-rows\">" ++
    jsArrayJoin (linesNum code + 1) "<span></span>" ++ "</span>"

/-- `langs.filter(Boolean)` — drop the empty (falsy) strings. -/
def filterTruthy (langs : List String) : List String :=
  langs.filter (fun s => s ≠ "")

/-- `renderer.code`, parameterized by the external highlighter: `known`
models membership in `Prism.languages`, and `highlight code lang info`
models `Prism.highlight(code, Prism.languages[lang], infostring)`.  The
template literal is reproduced byte for byte. -/
def renderCode (known : String → Bool) (highlight : String → String → String → String)
    (code : String) (infostring : String) : String :=
  let langs := splitLangs infostring
  let pfx := langsPrefix infostring
  let md :=
    if (filterTruthy langs).length ≠ 0 && known (langs.headD "") then
      highlight code (langs.headD "") infostring
    else code
  "\n      <div class=\"code_wrap\">\n        <button data-type=\"copy\">copy</button>\n        <pre class=\"line-numbers " ++
    pfx ++ "\"><code class=\"" ++ pfx ++ "\">\n          " ++
    (md ++ lineNumbersWrapper code) ++ "\n        </code></pre>\n      </div>"

/-! ## Heading scan: the pattern of `getHtmlStr`'s global replace

The heading regex is `/<h(\d{1})\s{1}(?:id="([^"]*)")?[^>]*>(.*?)<\/h\1>/gim`:
literal `<`, `h` (case-insensitive), one digit (captured), one whitespace,
an optional greedy group `id="…"` capturing the value up to the next `"`,
then `[^>]*>` (skip to the first `>`), then a lazy `(.*?)` that cannot
cross a line terminator, then the matching closing tag (same digit, `h`
case-insensitive).  The only choice point is the optional group: the
engine first tries it and falls back to the group-less reading when the
remainder of the pattern fails. -/

/-- The optional group `id="([^"]*)"` under the `i` flag: `i`, `d` match
case-insensitively, then `="`, then the captured value up to the first
`"`.  Returns the consumed characters and the captured value. -/
def matchIdGroup : List Char → Option (List Char × List Char × List Char)
  | i :: d :: eq :: q :: rest =>
    if ciEq i 'i' && ciEq d 'd' && eq = '=' && q = '"' then
      (takeUntilChar '"' rest).map
        (fun p => ([i, d, eq, q] ++ p.1 ++ ['"'], p.1, p.2))
    else none
  | _ => none

/-- The closing tag `<\/h\1>` (`h` case-insensitive, `\1` the captured
digit) read at the start of the input: returns the consumed characters
and the rest. -/
def closeTagSplit (d : Char) (s : List Char) : Option (List Char × List Char) :=
  match s with
  | lt :: sl :: hc :: d' :: gt :: rest =>
    if lt = '<' && sl = '/' && ciEq hc 'h' && d' = d && gt = '>' then
      some ([lt, sl, hc, d', gt], rest)
    else none
  | _ => none

/-- The lazy tail `(.*?)<\/h\1>`: at each position first try the closing
tag, else consume one `.` character — which cannot be a line terminator.
Returns the inner text, the consumed closing-tag characters, and the
rest. -/
def findCloseTag (d : Char) : List Char → Option (List Char × List Char × List Char)
  | [] => none
  | c :: cs =>
    match closeTagSplit d (c :: cs) with
    | some (close, rest) => some ([], close, rest)
    | none =>
      if isLineTerm c then none
      else (findCloseTag d cs).map (fun p => (c :: p.1, p.2.1, p.2.2))

/-- A heading match: the full matched text `raw`, the captured level
digit, the optional captured `id` value, the captured inner text, and
the unconsumed rest of the input. -/
structure HeadMatch where
  raw : List Char
  lvl : Char
  idArg : Option (List Char)
  txt : List Char
  rest : List Char
  deriving Repr, DecidableEq

/-- The tail of the heading pattern after the optional group: `[^>]*>`
(skip to the first `>`) then the lazy text up to the matching close tag.
`pre` is what the pattern consumed so far, `idv` the id capture. -/
def tryHeadTail (pre : List Char) (d : Char) (idv : Option (List Char))
    (s : List Char) : Option HeadMatch :=
  match takeUntilChar '>' s with
  | some (attrs, rest2) =>
    match findCloseTag d rest2 with
    | some (txt, close, rest3) =>
      some ⟨pre ++ attrs ++ ['>'] ++ txt ++ close, d, idv, txt, rest3⟩
    | none => none
  | none => none

/-- The heading pattern after its four fixed leading characters: the id
group if it is there and lets the rest of the pattern match (greedy
optional with backtracking), else the group-less reading. -/
def tryMatchAfterGuard (lt hh d w : Char) (rest0 : List Char) : Option HeadMatch :=
  match matchIdGroup rest0 with
  | some (gchars, idv, rest1) =>
    match tryHeadTail ([lt, hh, d, w] ++ gchars) d (some idv) rest1 with
    | some m => some m
    | none => tryHeadTail [lt, hh, d, w] d none rest0
  | none => tryHeadTail [lt, hh, d, w] d none rest0

/-- Match the heading pattern at the start of the input: `<`, `h`
(case-insensitive), a digit (captured), one whitespace, then the rest of
the pattern. -/
def tryMatchHeading (s : List Char) : Option HeadMatch :=
  match s with
  | lt :: h :: d :: w :: rest0 =>
    if lt = '<' && ciEq h 'h' && d.isDigit && isJsWs w then
      tryMatchAfterGuard lt h d w rest0
    else none
  | _ => none

lemma closeTagSplit_sound {d : Char} {s close rest : List Char}
    (h : closeTagSplit d s = some (close, rest)) :
    s = close ++ rest ∧ close.length = 5 := by
  rcases s with _ | ⟨a, _ | ⟨b, _ | ⟨c', _ | ⟨e, _ | ⟨f, r⟩⟩⟩⟩⟩ <;>
    simp [closeTagSplit] at h
  rcases h with ⟨-, h1, h2⟩
  rw [← h1, ← h2]
  simp

lemma closeTagSplit_none_of_head {d c : Char} {cs : List Char} (hc : c ≠ '<') :
    closeTagSplit d (c :: cs) = none := by
  rcases cs with _ | ⟨b, _ | ⟨c', _ | ⟨e, _ | ⟨f, r⟩⟩⟩⟩ <;>
    simp [closeTagSplit, hc]

lemma findCloseTag_sound {d : Char} :
    ∀ {s txt close rest : List Char},
      findCloseTag d s = some (txt, close, rest) →
        s = txt ++ close ++ rest ∧ close.length = 5 := by
  intro s
  induction s with
  | nil => intro txt close rest h; simp [findCloseTag] at h
  | cons c cs ih =>
    intro txt close rest h
    rw [findCloseTag] at h
    cases hsplit : closeTagSplit d (c :: cs) with
    | some p =>
      rw [hsplit] at h
      obtain ⟨hs, hlen⟩ := closeTagSplit_sound hsplit
      rcases p with ⟨cl, r⟩
      simp only at h
      injection h with h1
      injection h1 with ht h2
      injection h2 with hcl hr
      subst ht; subst hcl; subst hr
      exact ⟨by simpa using hs, hlen⟩
    | none =>
      rw [hsplit] at h
      by_cases hlt : isLineTerm c
      · simp [hlt] at h
      · simp only [hlt, Bool.false_eq_true, if_false, if_neg, Option.map_eq_some'] at h
        obtain ⟨⟨t, cl, r⟩, hp, he⟩ := h
        obtain ⟨hs, hlen⟩ := ih hp
        injection he with h1 h2
        injection h2 with hcl hr
        subst h1; subst hcl; subst hr
        exact ⟨by simp [hs], hlen⟩

lemma findCloseTag_rest_lt {d : Char} {s txt close rest : List Char}
    (h : findCloseTag d s = some (txt, close, rest)) : rest.length < s.length := by
  obtain ⟨hs, hlen⟩ := findCloseTag_sound h
  rw [hs]
  simp only [List.length_append, hlen]
  omega

lemma matchIdGroup_sound {s g v r : List Char}
    (h : matchIdGroup s = some (g, v, r)) :
    s = g ++ r ∧ g.length = v.length + 5 := by
  rcases s with _ | ⟨i, _ | ⟨d, _ | ⟨eq, _ | ⟨q, rest⟩⟩⟩⟩
  · exact absurd h (by simp [matchIdGroup])
  · exact absurd h (by simp [matchIdGroup])
  · exact absurd h (by simp [matchIdGroup])
  · exact absurd h (by simp [matchIdGroup])
  rw [matchIdGroup] at h
  split at h
  · cases ht : takeUntilChar '"' rest with
    | none => rw [ht] at h; exact absurd h (by simp)
    | some p =>
      rcases p with ⟨pre, rst⟩
      rw [ht] at h
      simp only [Option.map_some'] at h
      injection h with h1
      simp only [Prod.mk.injEq] at h1
      obtain ⟨hg, hv, hr⟩ := h1
      obtain ⟨hs, -⟩ := takeUntilChar_sound ht
      subst hg; subst hv; subst hr
      constructor
      · simp [hs]
      · simp only [List.length_append, List.length_cons, List.length_nil]
        omega
  · exact absurd h (by simp)

lemma matchIdGroup_rest_lt {s g v r : List Char}
    (h : matchIdGroup s = some (g, v, r)) : r.length < s.length := by
  obtain ⟨hs, hlen⟩ := matchIdGroup_sound h
  rw [hs]
  simp only [List.length_append]
  omega

lemma takeUntilChar_rest_lt {c : Char} {s pre rest : List Char}
    (h : takeUntilChar c s = some (pre, rest)) : rest.length < s.length := by
  obtain ⟨hs, -⟩ := takeUntilChar_sound h
  rw [hs]
  simp only [List.length_append, List.length_cons]
  omega

lemma tryHeadTail_rest_lt {pre : List Char} {d : Char} {idv : Option (List Char)}
    {s : List Char} {m : HeadMatch} (h : tryHeadTail pre d idv s = some m) :
    m.rest.length < s.length := by
  unfold tryHeadTail at h
  cases ht : takeUntilChar '>' s with
  | none => rw [ht] at h; exact absurd h (by simp)
  | some q =>
    rcases q with ⟨attrs, rest2⟩
    rw [ht] at h
    simp only at h
    cases hf : findCloseTag d rest2 with
    | none => rw [hf] at h; exact absurd h (by simp)
    | some t =>
      rcases t with ⟨txt, close, rest3⟩
      rw [hf] at h
      simp only at h
      injection h with h1
      subst h1
      have l1 := findCloseTag_rest_lt hf
      have l2 := takeUntilChar_rest_lt ht
      simp only
      omega

lemma tryMatchAfterGuard_rest_lt {lt hh d w : Char} {rest0 : List Char}
    {m : HeadMatch} (h : tryMatchAfterGuard lt hh d w rest0 = some m) :
    m.rest.length < rest0.length + 4 := by
  unfold tryMatchAfterGuard at h
  cases hg : matchIdGroup rest0 with
  | none =>
    rw [hg] at h
    simp only at h
    have := tryHeadTail_rest_lt h
    omega
  | some p =>
    rcases p with ⟨gchars, idv, rest1⟩
    rw [hg] at h
    simp only at h
    cases hw : tryHeadTail ([lt, hh, d, w] ++ gchars) d (some idv) rest1 with
    | some mw =>
      rw [hw] at h
      simp only at h
      injection h with h1
      subst h1
      have l1 := tryHeadTail_rest_lt hw
      have l3 := matchIdGroup_rest_lt hg
      omega
    | none =>
      rw [hw] at h
      simp only at h
      have := tryHeadTail_rest_lt h
      omega

lemma tryMatchHeading_rest_lt {s : List Char} {m : HeadMatch}
    (h : tryMatchHeading s = some m) : m.rest.length < s.length := by
  rcases s with _ | ⟨lt, _ | ⟨hh, _ | ⟨d, _ | ⟨w, rest0⟩⟩⟩⟩
  · exact absurd h (by simp [tryMatchHeading])
  · exact absurd h (by simp [tryMatchHeading])
  · exact absurd h (by simp [tryMatchHeading])
  · exact absurd h (by simp [tryMatchHeading])
  rw [show tryMatchHeading (lt :: hh :: d :: w :: rest0) =
      (if lt = '<' && ciEq hh 'h' && d.isDigit && isJsWs w then
        tryMatchAfterGuard lt hh d w rest0
      else none) from rfl] at h
  split at h
  · have := tryMatchAfterGuard_rest_lt h
    simp only [List.length_cons]
    omega
  · exact absurd h (by simp)

/-! ## The replacement callback of the heading scan -/

/-- The test `/^<(\w+)([^>]*)>/.test(text)`: a `<`, at least one word
character, and a later `>` (the greedy `\w+`/`[^>]*` pair matches
exactly when the first `>` after the word run exists). -/
def startsWithTagTest : List Char → Bool
  | lt :: c :: rest => lt = '<' && isWordChar c && rest.contains '>'
  | _ => false

/-- The closing tag `</name>` of `<\/\1>` with no `i` flag: lazy search
(first occurrence whose preceding characters are all `.`-matchable),
returning the skipped inner text and the rest after the closing tag. -/
def findCloseExact (name : List Char) : List Char → Option (List Char × List Char)
  | [] => none
  | c :: cs =>
    if ('<' :: '/' :: (name ++ ['>'])).isPrefixOf (c :: cs) then
      some ([], (c :: cs).drop (name.length + 3))
    else if isLineTerm c then none
    else (findCloseExact name cs).map (fun p => (c :: p.1, p.2))

/-- Backtracking over the greedy `(\w+)` capture of the tag-pair
pattern: the closing tag is sought for the name lengths from longest to
shortest (the `[^>]*>` part consumes up to the same first `>` for every
name length, word characters not being `>`). -/
def tryTagNames (wrun rest2 : List Char) : Nat → Option (List Char × List Char)
  | 0 => none
  | k + 1 =>
    match findCloseExact (wrun.take (k + 1)) rest2 with
    | some p => some p
    | none => tryTagNames wrun rest2 k

/-- Match `<(\w+)[^>]*>(.*?)<\/\1>` at the start of the input (the
pattern of `textNoTag`, no flags).  Returns capture 2 — the inner text —
and the rest after the closing tag. -/
def tagPairAt (s : List Char) : Option (List Char × List Char) :=
  match s with
  | '<' :: rest =>
    let wrun := rest.takeWhile isWordChar
    if wrun.isEmpty then none
    else
      match takeUntilChar '>' (rest.dropWhile isWordChar) with
      | some (_, rest2) => tryTagNames wrun rest2 wrun.length
      | none => none
  | _ => none

lemma findCloseExact_rest_lt {name : List Char} :
    ∀ {s inner rest : List Char},
      findCloseExact name s = some (inner, rest) → rest.length < s.length := by
  intro s
  induction s with
  | nil => intro inner rest h; simp [findCloseExact] at h
  | cons c cs ih =>
    intro inner rest h
    rw [findCloseExact] at h
    split at h
    · injection h with h1
      simp only [Prod.mk.injEq] at h1
      obtain ⟨-, hr⟩ := h1
      subst hr
      simp only [List.length_drop, List.length_cons]
      omega
    · split at h
      · exact absurd h (by simp)
      · rw [Option.map_eq_some'] at h
        obtain ⟨⟨i', r'⟩, hp, he⟩ := h
        injection he with h1 h2
        subst h2
        exact Nat.lt_trans (ih hp) (by simp)

lemma tryTagNames_rest_lt {wrun rest2 : List Char} :
    ∀ {k : Nat} {inner rest : List Char},
      tryTagNames wrun rest2 k = some (inner, rest) → rest.length < rest2.length := by
  intro k
  induction k with
  | zero => intro inner rest h; simp [tryTagNames] at h
  | succ k ih =>
    intro inner rest h
    rw [tryTagNames] at h
    cases hf : findCloseExact (wrun.take (k + 1)) rest2 with
    | some p =>
      rw [hf] at h
      simp only at h
      injection h with h1
      subst h1
      exact findCloseExact_rest_lt hf
    | none =>
      rw [hf] at h
      simp only at h
      exact ih h

lemma tagPairAt_rest_lt {s inner rest : List Char}
    (h : tagPairAt s = some (inner, rest)) : rest.length < s.length := by
  rcases s with _ | ⟨c, cs⟩
  · exact absurd h (by simp [tagPairAt])
  by_cases hc : c = '<'
  · subst hc
    rw [show tagPairAt ('<' :: cs) =
        (if (cs.takeWhile isWordChar).isEmpty then none
         else
          match takeUntilChar '>' (cs.dropWhile isWordChar) with
          | some (_, rest2) => tryTagNames (cs.takeWhile isWordChar) rest2
              (cs.takeWhile isWordChar).length
          | none => none) from rfl] at h
    split at h
    · exact absurd h (by simp)
    · cases ht : takeUntilChar '>' (cs.dropWhile isWordChar) with
      | none => rw [ht] at h; exact absurd h (by simp)
      | some q =>
        rcases q with ⟨pre2, rest2⟩
        rw [ht] at h
        simp only at h
        have h1 := tryTagNames_rest_lt h
        have h2 := takeUntilChar_rest_lt ht
        have h3 := length_dropWhile_le isWordChar cs
        simp only [List.length_cons]
        omega
  · exact absurd h (by rcases cs with _ | ⟨c2, cs2⟩ <;> simp [tagPairAt, hc])

/-- `text.match(/<(\w+)[^>]*>(.*?)<\/\1>/)`: leftmost match, capture 2.
`none` models a `null` match (reading `[2]` of it throws). -/
def firstTagPairInner : List Char → Option (List Char)
  | [] => none
  | c :: cs =>
    match tagPairAt (c :: cs) with
    | some p => some p.1
    | none => firstTagPairInner cs

/-- `text.replace(/<(\w+)([^>]*)>(.*?)<\/\1>/g, '')`: every
leftmost-disjoint tag-pair match is deleted — the pair together with
its inner content. -/
def removeTagPairs (s : List Char) : List Char :=
  match hm : tagPairAt s with
  | some p => removeTagPairs p.2
  | none =>
    match s with
    | [] => []
    | c :: cs => c :: removeTagPairs cs
termination_by s.length
decreasing_by
  · exact tagPairAt_rest_lt hm
  · simp

/-- The head test of `/<h\d{1}\s{1}([^>]*)>/` (no flags — lowercase `h`
only). -/
def rawAttrsAt : List Char → Option (List Char)
  | lt :: hh :: d :: w :: rest =>
    if lt = '<' && hh = 'h' && d.isDigit && isJsWs w then
      (takeUntilChar '>' rest).map Prod.fst
    else none
  | _ => none

/-- `raw.match(/<h\d{1}\s{1}([^>]*)>/)`: leftmost match anywhere in
`raw`, capture 1 — the attribute text up to the first `>`.  `none`
models a `null` match (reading `[1]` of it throws). -/
def rawAttrsMatch : List Char → Option (List Char)
  | [] => none
  | c :: cs =>
    match rawAttrsAt (c :: cs) with
    | some a => some a
    | none => rawAttrsMatch cs

/-- `attrs.replace(/(id="([^"]+)[^"]")?/, '')`: a non-global replace of
a fully optional pattern always acts at position 0, so it removes a
leading `id="v"` exactly when the value `v` has at least two characters
(`([^"]+)[^"]` needs two) — anything else is left unchanged. -/
def removeLeadingIdAttr (attrs : List Char) : List Char :=
  match attrs with
  | 'i' :: 'd' :: '=' :: '"' :: rest =>
    match takeUntilChar '"' rest with
    | some (v, rest2) => if 2 ≤ v.length then rest2 else attrs
    | none => attrs
  | _ => attrs

/-- The replacement template literal of the heading callback, byte for
byte (including the newlines and indentation inside the backticks). -/
def headingTemplate (d : Char) (attrsNoId idNoEmoji text : List Char) : List Char :=
  ('<' :: 'h' :: d :: ' ' :: attrsNoId) ++ (" id=\"").data ++ idNoEmoji ++
  ("\" class=\"ant-typography\">\n                    <a id=\"user-content-").data ++
  idNoEmoji ++ ("\" name=\"").data ++ idNoEmoji ++
  ("\" class=\"anchor\">\n                      <span data-type=\"anchor\" data-hash=\"#").data ++
  idNoEmoji ++
  ("\" class=\"iconfont icon-pin\"></span>\n                    </a>\n                    <span>").data ++
  text ++ ("</span>\n                  </h").data ++ [d] ++ (">").data

/-- `textNoTag` of the callback: unwrap when the text starts with a tag
(crashing when the tag-pair pattern then matches nowhere), else delete
the tag pairs. -/
def textNoTag (text : List Char) : Option (List Char) :=
  if startsWithTagTest text then (firstTagPairInner text).map trimWs
  else some (removeTagPairs text)

/-- `idNoEmoji` of the callback: `id ? strip-and-trim : slugify(text)` —
a missing id capture and an empty one both take the text branch. -/
def idNoEmoji (idArg : Option (List Char)) (text : List Char) : List Char :=
  match idArg with
  | some idv =>
    if idv.isEmpty then hyphenateWs (lowerList text)
    else trimWsHyphen (stripEmoji idv)
  | none => hyphenateWs (lowerList text)

/-- The replacement callback of `getHtmlStr`'s heading replace: computes
the clean text, the id and the surviving attributes, pushes the anchor
and returns the rebuilt heading.  `none` models a thrown `TypeError`
(one of the two inner `match(...)`es was `null`). -/
def headingCallback (m : HeadMatch) : Option (List Char × Anchor) :=
  match textNoTag m.txt, (rawAttrsMatch m.raw).map removeLeadingIdAttr with
  | some tnt, some attrs =>
    some (headingTemplate m.lvl attrs (idNoEmoji m.idArg m.txt) m.txt,
      ⟨String.mk tnt, String.mk ('#' :: idNoEmoji m.idArg m.txt),
        m.lvl.toNat - '0'.toNat⟩)
  | _, _ => none

/-- The global replace `str.replace(/<h(\d{1})…/gim, callback)`:
leftmost matches are replaced one after another, the text between
matches is copied unchanged, and the anchors are collected in match
order.  `none` when the callback throws. -/
def scanHeadings (s : List Char) : Option (List Char × List Anchor) :=
  match hm : tryMatchHeading s with
  | some m =>
    match headingCallback m with
    | none => none
    | some (repl, anchor) =>
      match scanHeadings m.rest with
      | none => none
      | some (out, ans) => some (repl ++ out, anchor :: ans)
  | none =>
    match s with
    | [] => some ([], [])
    | c :: cs =>
      match scanHeadings cs with
      | none => none
      | some (out, ans) => some (c :: out, ans)
termination_by s.length
decreasing_by
  · exact tryMatchHeading_rest_lt hm
  · simp

/-! ## Facts about the callback on tag-free text -/

/-- A character that cannot disturb the heading scan: not a tag
bracket, not a quote, not a line terminator. -/
def plainChar (c : Char) : Bool :=
  !(c = '<' || c = '>' || c = '"' || isLineTerm c)

/-- Heading text that is plain both as written and after lower-casing. -/
def plainHeadingText (t : List Char) : Bool :=
  t.all (fun c => plainChar c && plainChar c.toLower)

lemma hyphenateWs_fold_chars {x : Char} :
    ∀ (l : List Char) (acc : List Char × Bool),
      x ∈ (l.foldl
        (fun acc c =>
          if isJsWs c then (if acc.2 then acc.1 else acc.1 ++ ['-'], true)
          else (acc.1 ++ [c], false)) acc).1 →
      x ∈ acc.1 ∨ x = '-' ∨ x ∈ l := by
  intro l
  induction l with
  | nil => intro acc h; exact Or.inl h
  | cons c cs ih =>
    intro acc h
    simp only [List.foldl_cons] at h
    by_cases hw : isJsWs c
    · rw [if_pos hw] at h
      rcases ih _ h with h1 | h2 | h3
      · by_cases hb : acc.2
        · rw [if_pos hb] at h1
          exact Or.inl h1
        · rw [if_neg hb] at h1
          simp only [List.mem_append, List.mem_singleton] at h1
          rcases h1 with h1 | h1
          · exact Or.inl h1
          · exact Or.inr (Or.inl h1)
      · exact Or.inr (Or.inl h2)
      · exact Or.inr (Or.inr (List.mem_cons_of_mem _ h3))
    · rw [if_neg hw] at h
      rcases ih _ h with h1 | h2 | h3
      · simp only [List.mem_append, List.mem_singleton] at h1
        rcases h1 with h1 | h1
        · exact Or.inl h1
        · exact Or.inr (Or.inr (h1 ▸ List.mem_cons_self _ _))
      · exact Or.inr (Or.inl h2)
      · exact Or.inr (Or.inr (List.mem_cons_of_mem _ h3))

lemma hyphenateWs_chars {x : Char} {l : List Char} (h : x ∈ hyphenateWs l) :
    x = '-' ∨ x ∈ l := by
  rcases hyphenateWs_fold_chars l ([], false) h with h1 | h2 | h3
  · exact absurd h1 (by simp)
  · exact Or.inl h2
  · exact Or.inr h3

/-- Every character of the modelled default slug of a plain heading
text is a hyphen or the lower-casing of a text character. -/
lemma slug_chars {x : Char} {t : List Char}
    (h : x ∈ hyphenateWs (lowerList t)) :
    x = '-' ∨ ∃ c ∈ t, x = c.toLower := by
  rcases hyphenateWs_chars h with h1 | h2
  · exact Or.inl h1
  · rw [lowerList, List.mem_map] at h2
    obtain ⟨c, hc, he⟩ := h2
    exact Or.inr ⟨c, hc, he.symm⟩

lemma slug_not_mem {x : Char} {t : List Char} (hx : x ≠ '-')
    (hplain : ∀ c ∈ t, plainChar c.toLower = true)
    (hxp : plainChar x = false) :
    x ∉ hyphenateWs (lowerList t) := by
  intro hmem
  rcases slug_chars hmem with h1 | ⟨c, hc, he⟩
  · exact hx h1
  · have := hplain c hc
    rw [← he] at this
    exact absurd hxp (by simp [this])

lemma startsWithTagTest_head {c : Char} {cs : List Char} (hc : c ≠ '<') :
    startsWithTagTest (c :: cs) = false := by
  rcases cs with _ | ⟨c2, cs2⟩
  · rfl
  · show (decide (c = '<') && isWordChar c2 && (cs2.contains '>')) = false
    simp [hc]

lemma startsWithTagTest_plain {t : List Char} (h : '<' ∉ t) :
    startsWithTagTest t = false := by
  rcases t with _ | ⟨c, cs⟩
  · rfl
  · simp only [List.mem_cons, not_or] at h
    exact startsWithTagTest_head (fun e => h.1 e.symm)

lemma tagPairAt_none_of_head {c : Char} {cs : List Char} (hc : c ≠ '<') :
    tagPairAt (c :: cs) = none := by
  rw [tagPairAt.eq_def]
  split
  · rename_i rest heq
    injection heq with h1
    exact absurd h1 hc
  · rfl

lemma removeTagPairs_nil : removeTagPairs [] = [] := by
  rw [removeTagPairs.eq_def]
  rfl

lemma removeTagPairs_none_cons {c : Char} {cs : List Char}
    (hp : tagPairAt (c :: cs) = none) :
    removeTagPairs (c :: cs) = c :: removeTagPairs cs := by
  rw [removeTagPairs.eq_def]
  split
  · rename_i p hp'
    rw [hp] at hp'
    exact absurd hp' (by simp)
  · rfl

/-- The global tag-pair delete leaves tag-free text unchanged. -/
lemma removeTagPairs_id {t : List Char} (h : '<' ∉ t) :
    removeTagPairs t = t := by
  induction t with
  | nil => exact removeTagPairs_nil
  | cons c cs ih =>
    simp only [List.mem_cons, not_or] at h
    have hc : c ≠ '<' := fun e => h.1 e.symm
    rw [removeTagPairs_none_cons (tagPairAt_none_of_head hc), ih h.2]

/-- The callback's clean text of tag-free heading text is the text
itself. -/
lemma textNoTag_plain {t : List Char} (h : '<' ∉ t) :
    textNoTag t = some t := by
  rw [textNoTag, startsWithTagTest_plain h]
  simp [removeTagPairs_id h]

lemma scanHeadings_nil : scanHeadings [] = some ([], []) := by
  rw [scanHeadings.eq_def]
  rfl

lemma scanHeadings_pos {s : List Char} {m : HeadMatch}
    (hm : tryMatchHeading s = some m) :
    scanHeadings s =
      match headingCallback m with
      | none => none
      | some (repl, anchor) =>
        match scanHeadings m.rest with
        | none => none
        | some (out, ans) => some (repl ++ out, anchor :: ans) := by
  rw [scanHeadings.eq_def]
  split
  · rename_i m' hm'
    rw [hm] at hm'
    injection hm' with e
    subst e
    rfl
  · rename_i hm'
    rw [hm] at hm'
    exact absurd hm' (by simp)

lemma scanHeadings_none_cons {c : Char} {cs : List Char}
    (hm : tryMatchHeading (c :: cs) = none) :
    scanHeadings (c :: cs) =
      match scanHeadings cs with
      | none => none
      | some (out, ans) => some (c :: out, ans) := by
  rw [scanHeadings.eq_def]
  split
  · rename_i m' hm'
    rw [hm] at hm'
    exact absurd hm' (by simp)
  · rfl

lemma tryMatchHeading_none_of_head {c : Char} {cs : List Char} (hc : c ≠ '<') :
    tryMatchHeading (c :: cs) = none := by
  rcases cs with _ | ⟨b, _ | ⟨e, _ | ⟨f, r⟩⟩⟩ <;>
    simp [tryMatchHeading, hc]

/-! ## The scan on the modelled parser output -/

lemma matchIdGroup_complete {v rest : List Char} (hv : '"' ∉ v) :
    matchIdGroup ('i' :: 'd' :: '=' :: '"' :: (v ++ '"' :: rest)) =
      some (['i', 'd', '=', '"'] ++ v ++ ['"'], v, rest) := by
  have h1 : matchIdGroup ('i' :: 'd' :: '=' :: '"' :: (v ++ '"' :: rest)) =
      (takeUntilChar '"' (v ++ '"' :: rest)).map
        (fun p => (['i', 'd', '=', '"'] ++ p.1 ++ ['"'], p.1, p.2)) := by
    rw [matchIdGroup]
    rw [if_pos (by decide)]
  rw [h1, takeUntilChar_complete rest hv]
  simp

lemma findCloseTag_complete {d : Char} :
    ∀ {txt : List Char} (rest : List Char),
      (∀ c ∈ txt, isLineTerm c = false) → '<' ∉ txt →
      findCloseTag d (txt ++ '<' :: '/' :: 'h' :: d :: '>' :: rest) =
        some (txt, ['<', '/', 'h', d, '>'], rest) := by
  intro txt
  induction txt with
  | nil =>
    intro rest _ _
    rw [List.nil_append, findCloseTag]
    rw [show closeTagSplit d ('<' :: '/' :: 'h' :: d :: '>' :: rest) =
        some (['<', '/', 'h', d, '>'], rest) from by simp [closeTagSplit, ciEq]]
  | cons c cs ih =>
    intro rest hnl hlt
    simp only [List.mem_cons, not_or] at hlt
    have hc : c ≠ '<' := fun e => hlt.1 e.symm
    rw [List.cons_append, findCloseTag, closeTagSplit_none_of_head hc]
    rw [if_neg (by
      rw [hnl c (List.mem_cons_self c cs)]
      simp)]
    rw [ih rest (fun x hx => hnl x (List.mem_cons_of_mem c hx)) hlt.2]
    rfl

lemma tryMatchHeading_block {d : Char} (hd : d.isDigit = true)
    {slug t rest : List Char} (hq : '"' ∉ slug) (hlt : '<' ∉ t)
    (hnl : ∀ c ∈ t, isLineTerm c = false) :
    tryMatchHeading (['<', 'h', d, ' ', 'i', 'd', '=', '"'] ++ slug ++
        ['"', '>'] ++ t ++ ['<', '/', 'h', d, '>'] ++ rest) =
      some ⟨['<', 'h', d, ' ', 'i', 'd', '=', '"'] ++ slug ++ ['"', '>'] ++ t ++
          ['<', '/', 'h', d, '>'], d, some slug, t, rest⟩ := by
  have harg : ['<', 'h', d, ' ', 'i', 'd', '=', '"'] ++ slug ++
      ['"', '>'] ++ t ++ ['<', '/', 'h', d, '>'] ++ rest =
      '<' :: 'h' :: d :: ' ' :: ('i' :: 'd' :: '=' :: '"' ::
        (slug ++ '"' :: ('>' :: (t ++ '<' :: '/' :: 'h' :: d :: '>' :: rest)))) := by
    simp
  rw [harg]
  rw [show tryMatchHeading ('<' :: 'h' :: d :: ' ' :: ('i' :: 'd' :: '=' :: '"' ::
      (slug ++ '"' :: ('>' :: (t ++ '<' :: '/' :: 'h' :: d :: '>' :: rest))))) =
      (if ('<' : Char) = '<' && ciEq 'h' 'h' && d.isDigit && isJsWs ' ' then
        tryMatchAfterGuard '<' 'h' d ' ' ('i' :: 'd' :: '=' :: '"' ::
          (slug ++ '"' :: ('>' :: (t ++ '<' :: '/' :: 'h' :: d :: '>' :: rest))))
      else none) from rfl]
  rw [if_pos (by simp [ciEq, hd, isJsWs])]
  rw [tryMatchAfterGuard, matchIdGroup_complete hq]
  simp only
  rw [show tryHeadTail (['<', 'h', d, ' '] ++ (['i', 'd', '=', '"'] ++ slug ++ ['"']))
        d (some slug) ('>' :: (t ++ '<' :: '/' :: 'h' :: d :: '>' :: rest)) =
      (match findCloseTag d (t ++ '<' :: '/' :: 'h' :: d :: '>' :: rest) with
       | some (txt, close, rest3) =>
         some ⟨(['<', 'h', d, ' '] ++ (['i', 'd', '=', '"'] ++ slug ++ ['"'])) ++
           [] ++ ['>'] ++ txt ++ close, d, some slug, txt, rest3⟩
       | none => none) from by
    rw [tryHeadTail]
    rw [show takeUntilChar '>' ('>' :: (t ++ '<' :: '/' :: 'h' :: d :: '>' :: rest)) =
        some ([], t ++ '<' :: '/' :: 'h' :: d :: '>' :: rest) from by
      rw [takeUntilChar]
      simp]]
  rw [findCloseTag_complete rest hnl hlt]
  simp only
  congr 1
  simp

lemma rawAttrsMatch_head {c : Char} {cs a : List Char}
    (h : rawAttrsAt (c :: cs) = some a) :
    rawAttrsMatch (c :: cs) = some a := by
  rw [rawAttrsMatch, h]

/-- The callback succeeds on a heading match of the modelled parser
block shape, pushing the anchor with the heading text as title and the
numeric level. -/
lemma headingCallback_block {d : Char} (hd : d.isDigit = true)
    {slug t rest : List Char}
    (hq : '"' ∉ slug) (hgt : '>' ∉ slug) (hlt : '<' ∉ t) :
    ∃ repl, headingCallback
        ⟨['<', 'h', d, ' ', 'i', 'd', '=', '"'] ++ slug ++ ['"', '>'] ++ t ++
          ['<', '/', 'h', d, '>'], d, some slug, t, rest⟩ =
      some (repl, ⟨String.mk t, String.mk ('#' :: idNoEmoji (some slug) t),
        d.toNat - '0'.toNat⟩) := by
  have hattrs : rawAttrsMatch (['<', 'h', d, ' ', 'i', 'd', '=', '"'] ++ slug ++
      ['"', '>'] ++ t ++ ['<', '/', 'h', d, '>']) =
      some ('i' :: 'd' :: '=' :: '"' :: (slug ++ ['"'])) := by
    have harg : ['<', 'h', d, ' ', 'i', 'd', '=', '"'] ++ slug ++
        ['"', '>'] ++ t ++ ['<', '/', 'h', d, '>'] =
        '<' :: 'h' :: d :: ' ' ::
          (('i' :: 'd' :: '=' :: '"' :: (slug ++ ['"'])) ++
            '>' :: (t ++ ['<', '/', 'h', d, '>'])) := by
      simp
    rw [harg]
    refine rawAttrsMatch_head ?_
    rw [rawAttrsAt]
    rw [if_pos (by simp [hd, isJsWs])]
    rw [takeUntilChar_complete (t ++ ['<', '/', 'h', d, '>']) (by
      intro hmem
      simp only [List.mem_cons, List.mem_append, List.mem_singleton] at hmem
      rcases hmem with h1 | h1 | h1 | h1 | h1 | h1
      · exact absurd h1 (by decide)
      · exact absurd h1 (by decide)
      · exact absurd h1 (by decide)
      · exact absurd h1 (by decide)
      · exact hgt h1
      · exact absurd h1 (by decide))]
    rfl
  rw [headingCallback]
  simp only [textNoTag_plain hlt, hattrs, Option.map_some']
  exact ⟨_, rfl⟩

lemma plainChar_spec {c : Char} (h : plainChar c = true) :
    c ≠ '<' ∧ c ≠ '>' ∧ c ≠ '"' ∧ isLineTerm c = false := by
  rw [plainChar] at h
  simp only [Bool.not_eq_true', Bool.or_eq_false_iff] at h
  obtain ⟨⟨⟨h1, h2⟩, h3⟩, h4⟩ := h
  exact ⟨by simpa using h1, by simpa using h2, by simpa using h3, h4⟩

/-- Modelled from the spec: the default heading slug of the external
markdown parser (the id the parser itself puts on a heading, which the
post-processor is specified to read and replace): the heading text
lower-cased with whitespace runs collapsed to single hyphens. -/
def markedSlug (t : List Char) : List Char :=
  hyphenateWs (lowerList t)

/-- Modelled from the spec: one heading block of the external parser's
output — `<hN id="slug">text</hN>` followed by a newline. -/
def markedHeading (d : Char) (t : List Char) : List Char :=
  ['<', 'h', d, ' ', 'i', 'd', '=', '"'] ++ markedSlug t ++ ['"', '>'] ++ t ++
    ['<', '/', 'h', d, '>'] ++ ['\n']

/-- Modelled from the spec: the external generic markdown parser's
output for a document consisting solely of headings, one block per
heading, in document order. -/
def markedHeadings : List (Char × List Char) → List Char
  | [] => []
  | p :: hs => markedHeading p.1 p.2 ++ markedHeadings hs

/-- The scan of the modelled parser output: it succeeds and collects
exactly one anchor per heading, in document order, titled with the
heading text and carrying the numeric level. -/
lemma scanHeadings_marked (hs : List (Char × List Char))
    (h : ∀ p ∈ hs, p.1.isDigit = true ∧ plainHeadingText p.2 = true) :
    ∃ out, scanHeadings (markedHeadings hs) =
      some (out, hs.map (fun p =>
        ⟨String.mk p.2, String.mk ('#' :: idNoEmoji (some (markedSlug p.2)) p.2),
          p.1.toNat - '0'.toNat⟩)) := by
  induction hs with
  | nil => exact ⟨[], by simp [markedHeadings, scanHeadings_nil]⟩
  | cons p hs ih =>
    obtain ⟨hd, hplain⟩ := h p (List.mem_cons_self p hs)
    have hplain' : ∀ c ∈ p.2, plainChar c = true ∧ plainChar c.toLower = true := by
      intro c hc
      have := (List.all_eq_true.mp hplain) c hc
      simpa using this
    have hlt : '<' ∉ p.2 := fun hm => (plainChar_spec (hplain' _ hm).1).1 rfl
    have hnl : ∀ c ∈ p.2, isLineTerm c = false :=
      fun c hc => (plainChar_spec (hplain' c hc).1).2.2.2
    have hq : '"' ∉ markedSlug p.2 :=
      slug_not_mem (by decide) (fun c hc => (hplain' c hc).2) (by decide)
    have hgt : '>' ∉ markedSlug p.2 :=
      slug_not_mem (by decide) (fun c hc => (hplain' c hc).2) (by decide)
    have harr : markedHeadings (p :: hs) =
        ['<', 'h', p.1, ' ', 'i', 'd', '=', '"'] ++ markedSlug p.2 ++ ['"', '>'] ++
          p.2 ++ ['<', '/', 'h', p.1, '>'] ++ ('\n' :: markedHeadings hs) := by
      show markedHeading p.1 p.2 ++ markedHeadings hs = _
      rw [markedHeading]
      simp [List.append_assoc]
    obtain ⟨repl, hcb⟩ :=
      @headingCallback_block p.1 hd (markedSlug p.2) p.2
        ('\n' :: markedHeadings hs) hq hgt hlt
    obtain ⟨out, hout⟩ := ih (fun q hq' => h q (List.mem_cons_of_mem p hq'))
    refine ⟨repl ++ '\n' :: out, ?_⟩
    rw [harr, scanHeadings_pos (tryMatchHeading_block hd hq hlt hnl), hcb]
    simp only
    rw [scanHeadings_none_cons (tryMatchHeading_none_of_head (by decide)), hout]
    simp

/-! ## `getHtmlStr` and `useMarked` -/

/-- `value.replace(/^[​‌‍‎‏﻿]/, '')`:
strip one leading zero-width / BOM character. -/
def stripLeadingZw (s : String) : String :=
  match s.data with
  | c :: cs =>
    if (0x200B ≤ c.toNat && c.toNat ≤ 0x200F) || c.toNat = 0xFEFF then
      String.mk cs
    else s
  | [] => s

/-- `getHtmlStr`, instrumented: the conversion result (`none` when the
replace callback throws) together with the inputs the external parser
was invoked on.  The call `parse(...)` is unconditional — it happens
before the `value ? … : ''` ternary, which only picks the returned
value — so the invocation list always has one entry. -/
def getHtmlStrInstr (parse : String → String) (value : String) :
    Option (String × List Anchor) × List String :=
  let inp := stripLeadingZw value
  let str := parse inp
  ((if value = "" then some ("", [])
    else (scanHeadings str.data).map (fun p => (String.mk p.1, p.2))),
   [inp])

/-- `getHtmlStr`'s return value. -/
def getHtmlStr (parse : String → String) (value : String) :
    Option (String × List Anchor) :=
  (getHtmlStrInstr parse value).1

/-- The global match `title.match(/^([^\.]*)|([^\.]+)$/g)`, in closed
form.  The first alternative matches once, at position 0, and yields the
(possibly empty) run before the first `.`; the second alternative
requires a nonempty dot-free suffix, so after the first match the scan
finds it exactly at the position after the last `.` — it exists iff the
title contains a `.` and does not end with one.  The array is never
`null` (the first alternative always matches). -/
def jsExtMatch (t : String) : List String :=
  let pre := t.data.takeWhile (fun c => c ≠ '.')
  let suf := (t.data.reverse.takeWhile (fun c => c ≠ '.')).reverse
  if t.data.contains '.' && !suf.isEmpty then [String.mk pre, String.mk suf]
  else [String.mk pre]

/-- `const lang = (match[1] ?? '').replace('vue', 'html');` -/
def useMarkedLang (title : String) : String :=
  String.mk (replaceFirstStr ("vue").data ("html").data
    (((jsExtMatch title).get? 1).getD "").data)

/-- `/^md$/i.test(lang)`. -/
def isMdLang (lang : String) : Bool :=
  lang.data.map Char.toLower = ['m', 'd']

/-- The string handed to `getHtmlStr`: the raw value for markdown, else
a synthesized document holding one fenced code block. -/
def mdInput (value title : String) : String :=
  if isMdLang (useMarkedLang title) then value
  else "```" ++ useMarkedLang title ++ "\n" ++ value ++ "\n```"

/-- `useMarked`: resets the flat anchors, derives the language from the
title, wraps non-markdown input in a fenced block and converts.  Returns
the content with the anchor forest (`none` = exception), the
`isMarkdown` flag, and the parser invocations. -/
def useMarked (parse : String → String) (value title : String) :
    Option (String × List AnchorNode) × Bool × List String :=
  let r := getHtmlStrInstr parse (mdInput value title)
  ((r.1).map (fun p => (p.1, anchorsTree p.2)), isMdLang (useMarkedLang title), r.2)

lemma takeWhile_append_all {p : Char → Bool} :
    ∀ {l₁ : List Char} (l₂ : List Char), (∀ x ∈ l₁, p x = true) →
      (l₁ ++ l₂).takeWhile p = l₁ ++ l₂.takeWhile p := by
  intro l₁
  induction l₁ with
  | nil => intro l₂ _; rfl
  | cons x xs ih =>
    intro l₂ h
    rw [List.cons_append, List.takeWhile_cons_of_pos (h x (List.mem_cons_self x xs))]
    rw [ih l₂ (fun y hy => h y (List.mem_cons_of_mem x hy))]
    rfl

lemma takeWhile_append_stop {p : Char → Bool} :
    ∀ {l₁ : List Char} (l₂ : List Char), (∃ x ∈ l₁, p x = false) →
      (l₁ ++ l₂).takeWhile p = l₁.takeWhile p := by
  intro l₁
  induction l₁ with
  | nil => intro l₂ h; simp at h
  | cons x xs ih =>
    intro l₂ h
    by_cases hx : p x
    · obtain ⟨y, hy, hpy⟩ := h
      rcases List.mem_cons.mp hy with rfl | hy'
      · rw [hx] at hpy; exact absurd hpy (by simp)
      · rw [List.cons_append, List.takeWhile_cons_of_pos hx,
          List.takeWhile_cons_of_pos hx, ih l₂ ⟨y, hy', hpy⟩]
    · rw [List.cons_append,
        List.takeWhile_cons_of_neg (by simpa using hx),
        List.takeWhile_cons_of_neg (by simpa using hx)]

/-! ## Facts about the clean text extraction -/

/-- C3's claim-side markup strip: delete every `<…>` tag token, keeping
the text between and around tags (a scanner with an inside-tag flag). -/
def stripTagsKeepText (l : List Char) : List Char :=
  (l.foldl
    (fun (acc : List Char × Bool) c =>
      if acc.2 then (acc.1, c ≠ '>')
      else if c = '<' then (acc.1, true)
      else (acc.1 ++ [c], false))
    ([], false)).1

/-- C3's claim-side clean text: if the inner HTML consists of a single
wrapping tag containing the entire content, its inner text trimmed;
otherwise the tag markup is stripped and the remaining text kept. -/
def cleanTextClaim (text : List Char) : List Char :=
  match tagPairAt text with
  | some (inner, rest) =>
    if rest.isEmpty then trimWs inner else stripTagsKeepText text
  | none => stripTagsKeepText text

lemma dropWhile_append_all {p : Char → Bool} :
    ∀ {l₁ : List Char} (l₂ : List Char), (∀ x ∈ l₁, p x = true) →
      (l₁ ++ l₂).dropWhile p = l₂.dropWhile p := by
  intro l₁
  induction l₁ with
  | nil => intro l₂ _; rfl
  | cons x xs ih =>
    intro l₂ h
    rw [List.cons_append, List.dropWhile_cons_of_pos (h x (List.mem_cons_self x xs))]
    exact ih l₂ (fun y hy => h y (List.mem_cons_of_mem x hy))

lemma findCloseExact_complete {name : List Char} :
    ∀ {inner : List Char} (rest : List Char), '<' ∉ inner →
      (∀ c ∈ inner, isLineTerm c = false) →
      findCloseExact name (inner ++ '<' :: '/' :: (name ++ '>' :: rest)) =
        some (inner, rest) := by
  intro inner
  induction inner with
  | nil =>
    intro rest _ _
    rw [List.nil_append, findCloseExact]
    rw [if_pos (by
      rw [List.isPrefixOf_iff_prefix]
      exact ⟨rest, by simp⟩)]
    have hdrop : ('<' :: '/' :: (name ++ '>' :: rest)).drop (name.length + 3) =
        rest := by
      rw [show name.length + 3 = ((name ++ ['>']).length + 1) + 1 from by simp]
      rw [List.drop_succ_cons, List.drop_succ_cons,
        show name ++ '>' :: rest = (name ++ ['>']) ++ rest from by simp]
      exact List.drop_left _ _
    rw [hdrop]
  | cons c cs ih =>
    intro rest hlt hnl
    simp only [List.mem_cons, not_or] at hlt
    have hc : c ≠ '<' := fun e => hlt.1 e.symm
    rw [List.cons_append, findCloseExact]
    rw [if_neg (by
      intro hpre
      rw [List.isPrefixOf_iff_prefix] at hpre
      obtain ⟨t, ht⟩ := hpre
      rw [List.cons_append] at ht
      injection ht with h1
      exact hc h1.symm)]
    rw [if_neg (by
      rw [hnl c (List.mem_cons_self c cs)]
      simp)]
    rw [ih rest hlt.2 (fun x hx => hnl x (List.mem_cons_of_mem c hx))]
    rfl

lemma tryTagNames_full {name Y inner rest : List Char}
    (h : findCloseExact name Y = some (inner, rest)) (hlen : 0 < name.length) :
    tryTagNames name Y name.length = some (inner, rest) := by
  rcases hn : name.length with _ | m
  · omega
  · rw [tryTagNames]
    rw [show name.take (m + 1) = name from by
      rw [← hn]
      exact List.take_length name]
    rw [h]

lemma tagPairAt_complete {name inner rest : List Char} (hname : name ≠ [])
    (hword : ∀ c ∈ name, isWordChar c = true) (hlt : '<' ∉ inner)
    (hnl : ∀ c ∈ inner, isLineTerm c = false) :
    tagPairAt ('<' :: (name ++ '>' ::
        (inner ++ '<' :: '/' :: (name ++ '>' :: rest)))) =
      some (inner, rest) := by
  have hw : (name ++ '>' :: (inner ++ '<' :: '/' :: (name ++ '>' :: rest))).takeWhile
      isWordChar = name := by
    rw [takeWhile_append_all _ hword, List.takeWhile_cons_of_neg (by decide)]
    simp
  have hdw : (name ++ '>' :: (inner ++ '<' :: '/' :: (name ++ '>' :: rest))).dropWhile
      isWordChar = '>' :: (inner ++ '<' :: '/' :: (name ++ '>' :: rest)) := by
    rw [dropWhile_append_all _ hword, List.dropWhile_cons_of_neg (by decide)]
  rw [show tagPairAt ('<' :: (name ++ '>' ::
      (inner ++ '<' :: '/' :: (name ++ '>' :: rest)))) =
    (let wrun := (name ++ '>' ::
        (inner ++ '<' :: '/' :: (name ++ '>' :: rest))).takeWhile isWordChar
     if wrun.isEmpty then none
     else
      match takeUntilChar '>' ((name ++ '>' ::
          (inner ++ '<' :: '/' :: (name ++ '>' :: rest))).dropWhile isWordChar) with
      | some (_, rest2) => tryTagNames wrun rest2 wrun.length
      | none => none) from rfl]
  simp only [hw, hdw]
  rw [if_neg (by simpa [List.isEmpty_iff] using hname)]
  rw [show takeUntilChar '>' ('>' :: (inner ++ '<' :: '/' :: (name ++ '>' :: rest))) =
      some ([], inner ++ '<' :: '/' :: (name ++ '>' :: rest)) from by
    rw [takeUntilChar]
    simp]
  simp only
  exact tryTagNames_full (findCloseExact_complete rest hlt hnl)
    (by simpa [List.length_pos] using hname)

lemma startsWithTagTest_wrapped {name rest' : List Char} (hname : name ≠ [])
    (hword : ∀ c ∈ name, isWordChar c = true) :
    startsWithTagTest ('<' :: (name ++ '>' :: rest')) = true := by
  rcases name with _ | ⟨n0, ns⟩
  · exact absurd rfl hname
  · rw [List.cons_append]
    show (decide (('<' : Char) = '<') && isWordChar n0 &&
      (ns ++ '>' :: rest').contains '>') = true
    rw [hword n0 (List.mem_cons_self n0 ns)]
    rw [show (ns ++ '>' :: rest').contains '>' = true from
      List.elem_iff.mpr (by simp)]
    rfl

lemma firstTagPairInner_head {c : Char} {cs : List Char}
    {p : List Char × List Char} (h : tagPairAt (c :: cs) = some p) :
    firstTagPairInner (c :: cs) = some p.1 := by
  rw [firstTagPairInner, h]

lemma removeTagPairs_pos {s : List Char} {p : List Char × List Char}
    (hp : tagPairAt s = some p) : removeTagPairs s = removeTagPairs p.2 := by
  rw [removeTagPairs.eq_def]
  split
  · rename_i q hq
    rw [hp] at hq
    injection hq with e
    rw [e]
  · rename_i hq
    rw [hp] at hq
    exact absurd hq (by simp)

lemma removeTagPairs_append_pair {name inner : List Char}
    (hname : name ≠ []) (hword : ∀ c ∈ name, isWordChar c = true)
    (hlt : '<' ∉ inner) (hnl : ∀ c ∈ inner, isLineTerm c = false) :
    ∀ {u : List Char}, '<' ∉ u →
      removeTagPairs (u ++ '<' :: (name ++ '>' ::
        (inner ++ '<' :: '/' :: (name ++ '>' :: [])))) = u := by
  intro u
  induction u with
  | nil =>
    intro _
    rw [List.nil_append,
      removeTagPairs_pos (tagPairAt_complete hname hword hlt hnl)]
    exact removeTagPairs_nil
  | cons c cs ih =>
    intro hu
    simp only [List.mem_cons, not_or] at hu
    have hc : c ≠ '<' := fun e => hu.1 e.symm
    rw [List.cons_append, removeTagPairs_none_cons (tagPairAt_none_of_head hc),
      ih hu.2]

/-! ## Facts about the trim operations and the heading id -/

lemma head?_dropWhile {p : Char → Bool} :
    ∀ {l : List Char} {c : Char}, (l.dropWhile p).head? = some c → p c = false := by
  intro l
  induction l with
  | nil => intro c h; simp [List.dropWhile] at h
  | cons x xs ih =>
    intro c h
    by_cases hx : p x
    · rw [List.dropWhile_cons_of_pos hx] at h
      exact ih h
    · rw [List.dropWhile_cons_of_neg hx] at h
      simp only [List.head?_cons, Option.some.injEq] at h
      rw [← h]
      simpa using hx

lemma getLast?_dropWhile {p : Char → Bool} :
    ∀ {l : List Char}, l.dropWhile p ≠ [] →
      (l.dropWhile p).getLast? = l.getLast? := by
  intro l
  induction l with
  | nil => intro h; simp [List.dropWhile] at h
  | cons x xs ih =>
    intro h
    by_cases hx : p x
    · rw [List.dropWhile_cons_of_pos hx] at h ⊢
      rw [ih h]
      have hxs : xs ≠ [] := by
        rintro rfl
        simp [List.dropWhile] at h
      rcases xs with _ | ⟨y, ys⟩
      · exact absurd rfl hxs
      · exact (List.getLast?_cons_cons).symm
    · rw [List.dropWhile_cons_of_neg hx]

/-- Every character of the trimmed list is a character of the input. -/
lemma trimBy_subset {p : Char → Bool} {s : List Char} {c : Char}
    (h : c ∈ trimBy p s) : c ∈ s := by
  rw [trimBy] at h
  rw [List.mem_reverse] at h
  have h1 := (List.dropWhile_sublist p).subset h
  rw [List.mem_reverse] at h1
  exact (List.dropWhile_sublist p).subset h1

/-- The first character of the trimmed list does not satisfy the
trimming predicate. -/
lemma trimBy_head {p : Char → Bool} {s : List Char} {c : Char}
    (h : (trimBy p s).head? = some c) : p c = false := by
  rw [trimBy, List.head?_reverse] at h
  have hne : (s.dropWhile p).reverse.dropWhile p ≠ [] := by
    intro e
    rw [e] at h
    simp at h
  rw [getLast?_dropWhile hne, List.getLast?_reverse] at h
  exact head?_dropWhile h

/-- The last character of the trimmed list does not satisfy the
trimming predicate. -/
lemma trimBy_last {p : Char → Bool} {s : List Char} {c : Char}
    (h : (trimBy p s).getLast? = some c) : p c = false := by
  rw [trimBy, List.getLast?_reverse] at h
  exact head?_dropWhile h

lemma stripEmoji_no_emoji {idv : List Char} {c : Char}
    (h : c ∈ stripEmoji idv) : isEmojiChar c = false := by
  rw [stripEmoji, List.mem_filter] at h
  simpa using h.2

/-- C2's claim-side id: when the parser supplied an authored id, strip
the emoji and trim whitespace and hyphens; otherwise the clean text
lower-cased with whitespace runs collapsed to single hyphens. -/
def headingIdClaim (idArg : Option (List Char)) (text : List Char) :
    Option (List Char) :=
  match idArg with
  | some idv => some (trimWsHyphen (stripEmoji idv))
  | none => (textNoTag text).map (fun ct => hyphenateWs (lowerList ct))

/-! ## Facts about the attribute rewrite -/

lemma takeUntilChar_none {c : Char} :
    ∀ {s : List Char}, c ∉ s → takeUntilChar c s = none := by
  intro s
  induction s with
  | nil => intro _; rfl
  | cons x xs ih =>
    intro h
    simp only [List.mem_cons, not_or] at h
    rw [takeUntilChar, if_neg (fun e => h.1 e.symm), ih h.2]
    rfl

lemma takeUntilChar_of_mem {c : Char} :
    ∀ {s : List Char}, c ∈ s →
      takeUntilChar c s = some (s.takeWhile (fun x => x ≠ c),
        s.drop ((s.takeWhile (fun x => x ≠ c)).length + 1)) := by
  intro s
  induction s with
  | nil => intro h; simp at h
  | cons x xs ih =>
    intro h
    by_cases hx : x = c
    · subst hx
      rw [takeUntilChar, if_pos rfl, List.takeWhile_cons_of_neg (by simp)]
      simp
    · have hmem : c ∈ xs := by
        rcases List.mem_cons.mp h with e | e
        · exact absurd e.symm hx
        · exact e
      rw [takeUntilChar, if_neg hx, ih hmem,
        List.takeWhile_cons_of_pos (by simpa using hx)]
      simp

lemma takeWhile_ne_length_lt {c : Char} :
    ∀ {s : List Char}, c ∈ s →
      (s.takeWhile (fun x => x ≠ c)).length < s.length := by
  intro s
  induction s with
  | nil => intro h; simp at h
  | cons x xs ih =>
    intro h
    by_cases hx : x = c
    · subst hx
      rw [List.takeWhile_cons_of_neg (by simp)]
      simp
    · have hmem : c ∈ xs := by
        rcases List.mem_cons.mp h with e | e
        · exact absurd e.symm hx
        · exact e
      rw [List.takeWhile_cons_of_pos (by simpa using hx)]
      simpa using ih hmem

lemma takeWhile_all_eq_self {p : Char → Bool} :
    ∀ {s : List Char}, (∀ x ∈ s, p x = true) → s.takeWhile p = s := by
  intro s
  induction s with
  | nil => intro _; rfl
  | cons x xs ih =>
    intro h
    rw [List.takeWhile_cons_of_pos (h x (List.mem_cons_self x xs)),
      ih (fun y hy => h y (List.mem_cons_of_mem x hy))]

/-- Amended-side reading of the attribute rewrite: a leading `id="v"`
attribute is removed only when its quoted value — the run before the
next `"` — is properly closed and has at least two characters;
otherwise the attribute string is returned unchanged. -/
def removeLeadingIdAttrSpec (attrs : List Char) : List Char :=
  match attrs with
  | 'i' :: 'd' :: '=' :: '"' :: rest =>
    if 2 ≤ (rest.takeWhile (fun x => x ≠ '"')).length ∧
        (rest.takeWhile (fun x => x ≠ '"')).length < rest.length then
      rest.drop ((rest.takeWhile (fun x => x ≠ '"')).length + 1)
    else attrs
  | _ => attrs

lemma removeLeadingIdAttr_eq_spec (attrs : List Char) :
    removeLeadingIdAttr attrs = removeLeadingIdAttrSpec attrs := by
  rw [removeLeadingIdAttr.eq_def, removeLeadingIdAttrSpec.eq_def]
  split
  · rename_i rest
    by_cases hmem : '"' ∈ rest
    · rw [takeUntilChar_of_mem hmem]
      simp only
      have hlt := takeWhile_ne_length_lt hmem
      by_cases h2 : 2 ≤ (rest.takeWhile (fun x => x ≠ '"')).length
      · rw [if_pos h2, if_pos ⟨h2, hlt⟩]
      · rw [if_neg h2, if_neg (by rintro ⟨h, -⟩; exact h2 h)]
    · rw [takeUntilChar_none hmem]
      simp only
      rw [if_neg (by
        rintro ⟨-, hlen⟩
        rw [takeWhile_all_eq_self (fun x hx => by
          simp only [decide_eq_true_eq]
          intro e
          exact hmem (e ▸ hx))] at hlen
        exact Nat.lt_irrefl _ hlen)]
  · rfl

/-- C8's claim-side rewrite: a pre-existing `id="..."` attribute
occurrence — wherever it stands in the attribute string, with any
properly quoted value — is removed. -/
def idAttrAt : List Char → Option (List Char)
  | 'i' :: 'd' :: '=' :: '"' :: rest => (takeUntilChar '"' rest).map Prod.snd
  | _ => none

/-- The claim's attribute rewrite: delete the leftmost `id="..."`
occurrence anywhere in the string. -/
def removeIdAttrClaim : List Char → List Char
  | [] => []
  | c :: cs =>
    match idAttrAt (c :: cs) with
    | some rest => rest
    | none => c :: removeIdAttrClaim cs

/-! ## Facts about the language hint -/

/-- C6's claim-side language: "the substring before the first
'.'-delimited extension token", with `vue` mapped to `html`. -/
def langClaimC6 (title : String) : String :=
  let l := String.mk (title.data.takeWhile (fun c => c ≠ '.'))
  if l = "vue" then "html" else l

/-- Amended-side extension: the token after the last `.` of the name
hint — empty when there is no `.` or the hint ends with one — computed
by a left fold (`none` until a dot is seen, then the characters since
the last dot). -/
def extStep (acc : Option (List Char)) (c : Char) : Option (List Char) :=
  if c = '.' then some [] else acc.map (fun l => l ++ [c])

/-- The amended C6 language source: the extension after the last dot. -/
def extAfterLastDot (t : String) : String :=
  String.mk ((t.data.foldl extStep none).getD [])

/-- The characters after the last `.`, via reverse and `takeWhile`. -/
def afterLastDot (l : List Char) : List Char :=
  (l.reverse.takeWhile (fun c => c ≠ '.')).reverse

lemma foldl_extStep_some : ∀ (l : List Char) (a : List Char), '.' ∉ l →
    l.foldl extStep (some a) = some (a ++ l) := by
  intro l
  induction l with
  | nil => intro a _; simp
  | cons c cs ih =>
    intro a h
    simp only [List.mem_cons, not_or] at h
    have hc : c ≠ '.' := fun e => h.1 e.symm
    rw [List.foldl_cons, show extStep (some a) c = some (a ++ [c]) from by
      rw [extStep, if_neg hc]; rfl]
    rw [ih (a ++ [c]) h.2]
    simp

lemma foldl_extStep_none_of_not_mem : ∀ {l : List Char}, '.' ∉ l →
    l.foldl extStep none = none := by
  intro l
  induction l with
  | nil => intro _; rfl
  | cons c cs ih =>
    intro h
    simp only [List.mem_cons, not_or] at h
    have hc : c ≠ '.' := fun e => h.1 e.symm
    rw [List.foldl_cons, show extStep none c = none from by
      rw [extStep, if_neg hc]; rfl]
    exact ih h.2

lemma afterLastDot_cons_of_mem {c : Char} {cs : List Char} (h : '.' ∈ cs) :
    afterLastDot (c :: cs) = afterLastDot cs := by
  rw [afterLastDot, afterLastDot, List.reverse_cons,
    takeWhile_append_stop [c] ⟨'.', by simpa using h, by simp⟩]

lemma afterLastDot_dot_of_not_mem {cs : List Char} (h : '.' ∉ cs) :
    afterLastDot ('.' :: cs) = cs := by
  rw [afterLastDot, List.reverse_cons,
    takeWhile_append_all ['.'] (fun x hx => by
      simp only [List.mem_reverse] at hx
      simp only [decide_eq_true_eq]
      intro e
      exact h (e ▸ hx))]
  simp

lemma foldl_extStep_mem : ∀ {l : List Char}, '.' ∈ l →
    (∀ a : Option (List Char), l.foldl extStep a = some (afterLastDot l)) := by
  intro l
  induction l with
  | nil => intro h; simp at h
  | cons c cs ih =>
    intro h a
    by_cases hc : c = '.'
    · subst hc
      rw [List.foldl_cons, show extStep a '.' = some [] from by rw [extStep]; simp]
      by_cases hcs : '.' ∈ cs
      · rw [ih hcs, afterLastDot_cons_of_mem hcs]
      · rw [foldl_extStep_some cs [] hcs, afterLastDot_dot_of_not_mem hcs]
        simp
    · have hcs : '.' ∈ cs := by
        rcases List.mem_cons.mp h with e | e
        · exact absurd e.symm hc
        · exact e
      rw [List.foldl_cons, ih hcs, afterLastDot_cons_of_mem hcs]

/-- The closed form of `match[1] ?? ''` agrees with the fold-computed
extension after the last dot. -/
lemma jsExtMatch_snd_eq (t : String) :
    ((jsExtMatch t).get? 1).getD "" = extAfterLastDot t := by
  rw [jsExtMatch, extAfterLastDot]
  by_cases hmem : '.' ∈ t.data
  · rw [foldl_extStep_mem hmem]
    by_cases hsuf : ((t.data.reverse.takeWhile (fun c => c ≠ '.')).reverse).isEmpty
    · rw [if_neg (by rw [hsuf]; simp)]
      have : afterLastDot t.data = [] := by
        rw [afterLastDot]
        simpa [List.isEmpty_iff] using hsuf
      simp [this]
    · rw [if_pos (by
        rw [Bool.and_eq_true]
        exact ⟨List.elem_iff.mpr hmem, by simpa using hsuf⟩)]
      simp [afterLastDot]
  · rw [if_neg (by
      intro hand
      exact hmem (List.elem_iff.mp (Bool.and_elim_left hand))),
      foldl_extStep_none_of_not_mem hmem]
    rfl

/-- Claim-side newline count for C4: "the number of newline characters in
the code that are not at the very end of the string". -/
def newlinesNotAtEnd (code : String) : Nat :=
  (code.data.dropLast.filter (fun c => c = '\n')).length

lemma nlNotAtEndCount_eq (s : List Char) :
    nlNotAtEndCount s = (s.dropLast.filter (fun c => c = '\n')).length := by
  induction s with
  | nil => rfl
  | cons c cs ih =>
    cases cs with
    | nil => rfl
    | cons d ds =>
      rw [show (c :: d :: ds).dropLast = c :: (d :: ds).dropLast from rfl]
      by_cases hc : c = '\n'
      · simp [nlNotAtEndCount, hc, ih, Nat.add_comm]
      · simp [nlNotAtEndCount, hc, ih]

lemma linesNum_eq (code : String) : linesNum code = newlinesNotAtEnd code + 1 := by
  rw [linesNum, newlinesNotAtEnd, ← nlNotAtEndCount_eq]
  cases nlNotAtEndCount code.data <;> rfl

/-- Claim-side class list for C9 as stated: a single blank token gives
`language-none`; otherwise only the **non-empty** tokens are prefixed. -/
def langsPrefixClaim (infostring : String) : String :=
  let langs := splitLangs infostring
  if langs.length = 1 ∧ isBlankTok (langs.headD "") then "language-none"
  else String.intercalate " " ((langs.filter (fun t => t ≠ "")).map (fun t => "language-" ++ t))

/-- Amended class list for C9: every token is prefixed with `language-`,
empty tokens included (an empty token yields the bare class `language-`). -/
def langsPrefixAmended (infostring : String) : String :=
  let langs := splitLangs infostring
  if langs.length = 1 ∧ isBlankTok (langs.headD "") then "language-none"
  else String.intercalate " " (langs.map (fun t => "language-" ++ t))

lemma foldl_concat_map (f : String → String) (l : List String) (acc : List String) :
    l.foldl (fun r c => r ++ [f c]) acc = acc ++ l.map f := by
  induction l generalizing acc with
  | nil => simp
  | cons x xs ih => simp [ih]

lemma langsPrefixToks_eq (langs : List String) :
    langsPrefixToks langs =
      if langs.length = 1 ∧ isBlankTok (langs.headD "") then ["language-none"]
      else langs.map (fun t => "language-" ++ t) := by
  match langs with
  | [] => simp [langsPrefixToks]
  | [t] =>
    by_cases hb : isBlankTok t <;>
      simp [langsPrefixToks, hb, List.foldl]
  | a :: b :: rest =>
    have hcond : ((a :: b :: rest).length == 1) = false := by
      simp [List.length_cons]
    have hne : ¬ ((a :: b :: rest).length = 1 ∧
        isBlankTok ((a :: b :: rest).headD "")) := by
      rintro ⟨h1, -⟩
      simp [List.length_cons] at h1
    rw [if_neg hne]
    have hext : langsPrefixToks (a :: b :: rest) =
        (a :: b :: rest).foldl
          (fun r c => r ++ [(fun t => "language-" ++ t) c]) [] := by
      rw [langsPrefixToks]
      refine List.foldl_ext _ _ _ (fun res cur _ => ?_)
      rw [hcond]
      simp
    rw [hext, foldl_concat_map]
    simp

lemma langsPrefix_eq_amended (infostring : String) :
    langsPrefix infostring = langsPrefixAmended infostring := by
  rw [langsPrefix, langsPrefixAmended, langsPrefixToks_eq]
  by_cases h : (splitLangs infostring).length = 1 ∧
      isBlankTok ((splitLangs infostring).headD "")
  · rw [if_pos h, if_pos h]
    rfl
  · rw [if_neg h, if_neg h]

end Vuecore

/-- C1: for every flat anchor list, the anchor tree builder
(`state.anchorsTree`'s reduce) produces exactly the forest given by the
single left-to-right reduction of the claim: an anchor becomes a new
top-level node with empty children if the forest is empty or its level
is ≤ the level of the first top-level node, and is otherwise appended
as a child of the most-recently-added top-level node. -/
theorem C1_anchorsTree_is_claimed_reduction (l : List Vuecore.Anchor) :
    Vuecore.anchorsTree l = Vuecore.anchorsTreeSpec l :=
  Vuecore.anchorsTree_eq_spec l

/-- C4: for every code string (and any highlighter), the rendered
line-number gutter of `renderer.code` is exactly `n + 1` empty
`<span></span>` markers, where `n` is the number of newline characters
of the code that are not at the very end of the string; the gutter
element occurs inside the rendered fragment. -/
theorem C4_line_gutter_rows (known : String → Bool)
    (highlight : String → String → String → String) (code infostring : String) :
    Vuecore.lineNumbersWrapper code =
      "<span aria-hidden=\"true\" class=\"line-numbers-rows\">" ++
        String.join (List.replicate (Vuecore.newlinesNotAtEnd code + 1) "<span></span>") ++
        "</span>" ∧
    ∃ pre post : List Char,
      (Vuecore.renderCode known highlight code infostring).data =
        pre ++ (Vuecore.lineNumbersWrapper code).data ++ post := by
  constructor
  · rw [Vuecore.lineNumbersWrapper, Vuecore.jsArrayJoin, Vuecore.linesNum_eq]
    simp
  · by_cases h : ¬Vuecore.filterTruthy (Vuecore.splitLangs infostring) = [] ∧
        known ((Vuecore.splitLangs infostring).head?.getD "") = true
    · exact ⟨("\n      <div class=\"code_wrap\">\n        <button data-type=\"copy\">copy</button>\n        <pre class=\"line-numbers " ++
        Vuecore.langsPrefix infostring ++ "\"><code class=\"" ++
        Vuecore.langsPrefix infostring ++ "\">\n          " ++
        highlight code ((Vuecore.splitLangs infostring).head?.getD "") infostring).data,
        ("\n        </code></pre>\n      </div>").data,
        by simp [Vuecore.renderCode, h]⟩
    · exact ⟨("\n      <div class=\"code_wrap\">\n        <button data-type=\"copy\">copy</button>\n        <pre class=\"line-numbers " ++
        Vuecore.langsPrefix infostring ++ "\"><code class=\"" ++
        Vuecore.langsPrefix infostring ++ "\">\n          " ++ code).data,
        ("\n        </code></pre>\n      </div>").data,
        by simp [Vuecore.renderCode, h]⟩

/-- C10: any content on which the heading-scanning regex matches at no
position — for instance an opening tag with no attribute text after the
level digit, like `<h1>A</h1>` — is left byte-for-byte untouched by
the post-processor and contributes no anchor: an unmatched prefix is
copied through unchanged around whatever the scan does to the rest. -/
theorem C10_unmatched_content_passthrough (u v : List Char)
    (h : ∀ i, i < u.length → Vuecore.tryMatchHeading ((u ++ v).drop i) = none) :
    Vuecore.scanHeadings (u ++ v) =
      (Vuecore.scanHeadings v).map (fun p => (u ++ p.1, p.2)) := by
  induction u with
  | nil =>
    simp only [List.nil_append]
    cases hv : Vuecore.scanHeadings v with
    | none => simp
    | some p => cases p; simp
  | cons c cs ih =>
    have h0 := h 0 (by simp)
    simp only [List.drop_zero, List.cons_append] at h0
    rw [List.cons_append, Vuecore.scanHeadings_none_cons h0]
    rw [ih (fun i hi => by
      have := h (i + 1) (by simp only [List.length_cons]; omega)
      simpa using this)]
    cases hv : Vuecore.scanHeadings v with
    | none => simp
    | some p => cases p; simp

/-- C10 witness: the document `"before <h1>A</h1> after"` — a heading
tag with no attribute text after the digit plus surrounding prose —
matches nowhere, passes through byte-for-byte and contributes no
anchor. -/
theorem C10_witness :
    (∀ i, i < ("before <h1>A</h1> " : String).data.length →
      Vuecore.tryMatchHeading ((("before <h1>A</h1> " : String).data ++
        ("after" : String).data).drop i) = none) ∧
    Vuecore.scanHeadings (("before <h1>A</h1> " : String).data ++
        ("after" : String).data) =
      (Vuecore.scanHeadings ("after" : String).data).map
        (fun p => (("before <h1>A</h1> " : String).data ++ p.1, p.2)) :=
  ⟨by decide, C10_unmatched_content_passthrough _ _ (by decide)⟩

/-- C7: for every heading-only document (modelled external parser
output, one `<hN id="slug">text</hN>` block per heading), the scan
succeeds and the flat anchor list is exactly the headings in document
order, titled with the heading text and carrying the numeric level. -/
theorem C7_anchor_list_document_order (hs : List (Char × List Char))
    (h : ∀ p ∈ hs, p.1.isDigit = true ∧ Vuecore.plainHeadingText p.2 = true) :
    ∃ pr : List Char × List Vuecore.Anchor,
      Vuecore.scanHeadings (Vuecore.markedHeadings hs) = some pr ∧
      pr.2.map (fun a => (a.title, a.level)) =
        hs.map (fun p => (String.mk p.2, p.1.toNat - '0'.toNat)) := by
  obtain ⟨out, hout⟩ := Vuecore.scanHeadings_marked hs h
  refine ⟨(out, _), hout, ?_⟩
  rw [List.map_map]
  rfl

/-- C7 witness: the document `"# A\n## B\n# C"` (modelled parser output
`<h1 id="a">A</h1>`, `<h2 id="b">B</h2>`, `<h1 id="c">C</h1>` on
separate lines) yields exactly the anchors A (level 1), B (level 2),
C (level 1), in that order. -/
theorem C7_witness :
    (∀ p ∈ [('1', ("A" : String).data), ('2', ("B" : String).data),
        ('1', ("C" : String).data)],
      (p : Char × List Char).1.isDigit = true ∧
        Vuecore.plainHeadingText p.2 = true) ∧
    ∃ pr : List Char × List Vuecore.Anchor,
      Vuecore.scanHeadings (Vuecore.markedHeadings
        [('1', ("A" : String).data), ('2', ("B" : String).data),
          ('1', ("C" : String).data)]) = some pr ∧
      pr.2.map (fun a => (a.title, a.level)) =
        [("A", 1), ("B", 2), ("C", 1)] := by
  refine ⟨by decide, ?_⟩
  obtain ⟨pr, h1, h2⟩ := C7_anchor_list_document_order
    [('1', ("A" : String).data), ('2', ("B" : String).data),
      ('1', ("C" : String).data)] (by decide)
  exact ⟨pr, h1, by rw [h2]; decide⟩

/-- C3 counterexample: for the heading inner HTML `<em>A</em> B` — a
tag at the start that does not wrap the entire content — the code takes
the unwrap branch anyway and returns `A`, discarding ` B`, while the
claim (strip the markup, keep the remaining text) gives `A B`. -/
theorem C3_counterexample :
    Vuecore.textNoTag ("<em>A</em> B" : String).data =
      some (("A" : String).data) ∧
    Vuecore.cleanTextClaim ("<em>A</em> B" : String).data =
      ("A B" : String).data ∧
    some (("A" : String).data) ≠ some (("A B" : String).data) := by
  exact ⟨by decide, by decide, by decide⟩

/-- C3 (amended): if the inner HTML starts with an opening tag (a `<`,
a word character and a later `>`), the clean text is the trimmed inner
text of the first matched tag pair and everything after that pair is
discarded; otherwise every matched tag pair is removed together with
its inner content.  Concretely: a well-formed wrapping pair followed by
anything yields the trimmed inner text, and tag-free text followed by a
tag pair yields just the tag-free text. -/
theorem C3_amended_clean_text (name inner rest u : List Char)
    (hname : name ≠ []) (hword : ∀ c ∈ name, Vuecore.isWordChar c = true)
    (hlt : '<' ∉ inner) (hnl : ∀ c ∈ inner, Vuecore.isLineTerm c = false)
    (hu : u ≠ []) (hult : '<' ∉ u) :
    Vuecore.textNoTag ('<' :: (name ++ '>' ::
        (inner ++ '<' :: '/' :: (name ++ '>' :: rest)))) =
      some (Vuecore.trimWs inner) ∧
    Vuecore.textNoTag (u ++ '<' :: (name ++ '>' ::
        (inner ++ '<' :: '/' :: (name ++ '>' :: [])))) =
      some u := by
  constructor
  · rw [Vuecore.textNoTag,
      if_pos (Vuecore.startsWithTagTest_wrapped hname hword),
      Vuecore.firstTagPairInner_head
        (Vuecore.tagPairAt_complete hname hword hlt hnl)]
    rfl
  · rcases u with _ | ⟨c, cs⟩
    · exact absurd rfl hu
    · simp only [List.mem_cons, not_or] at hult
      have hc : c ≠ '<' := fun e => hult.1 e.symm
      rw [List.cons_append, Vuecore.textNoTag,
        if_neg (by rw [Vuecore.startsWithTagTest_head hc]; simp)]
      rw [← List.cons_append,
        Vuecore.removeTagPairs_append_pair hname hword hlt hnl
          (by simpa using hult)]

/-- C3 witness: the inner HTML `<em> Hi </em>X` (wrapping pair plus
trailing content) yields the trimmed inner text `Hi`; the inner HTML
`A <em> Hi </em>` (tag-free prefix plus a pair) yields `A ` with the
pair and its content removed. -/
theorem C3_witness :
    (("em" : String).data ≠ [] ∧
      (∀ c ∈ ("em" : String).data, Vuecore.isWordChar c = true) ∧
      '<' ∉ (" Hi " : String).data ∧
      (∀ c ∈ (" Hi " : String).data, Vuecore.isLineTerm c = false) ∧
      ("A " : String).data ≠ [] ∧ '<' ∉ ("A " : String).data) ∧
    (Vuecore.textNoTag ('<' :: (("em" : String).data ++ '>' ::
        ((" Hi " : String).data ++ '<' :: '/' ::
          (("em" : String).data ++ '>' :: ("X" : String).data)))) =
      some (Vuecore.trimWs (" Hi " : String).data) ∧
    Vuecore.textNoTag (("A " : String).data ++ '<' ::
        (("em" : String).data ++ '>' ::
          ((" Hi " : String).data ++ '<' :: '/' ::
            (("em" : String).data ++ '>' :: [])))) =
      some (("A " : String).data)) := by
  refine ⟨⟨by decide, by decide, by decide, by decide, by decide, by decide⟩, ?_⟩
  exact C3_amended_clean_text ("em" : String).data (" Hi " : String).data
    ("X" : String).data ("A " : String).data
    (by decide) (by decide) (by decide) (by decide) (by decide) (by decide)

/-- C2 counterexample: for a heading with no authored id whose inner
HTML is `<em>My Title</em>`, the code synthesizes the id from the RAW
inner HTML — `<em>my-title</em>` — not from the clean text
(`my-title`) as the claim states. -/
theorem C2_counterexample :
    Vuecore.idNoEmoji none ("<em>My Title</em>" : String).data =
      ("<em>my-title</em>" : String).data ∧
    Vuecore.headingIdClaim none ("<em>My Title</em>" : String).data =
      some (("my-title" : String).data) ∧
    ("<em>my-title</em>" : String).data ≠ ("my-title" : String).data := by
  exact ⟨by decide, by decide, by decide⟩

/-- C2 (amended): when the parser supplied a nonempty authored id, the
final id is that id with the emoji characters removed and
leading/trailing whitespace and hyphens trimmed — so it holds no emoji
and neither starts nor ends with whitespace or a hyphen — and an
authored id whose emoji-strip-and-trim is empty yields href exactly
`"#"`; when no authored id is present (or the authored id is empty),
the id is the raw inner HTML lower-cased with whitespace runs collapsed
to single hyphens. -/
theorem C2_amended_heading_id (idv text : List Char) (hne : idv ≠ []) :
    Vuecore.idNoEmoji (some idv) text =
      Vuecore.trimWsHyphen (Vuecore.stripEmoji idv) ∧
    (∀ c ∈ Vuecore.idNoEmoji (some idv) text,
      Vuecore.isEmojiChar c = false) ∧
    (∀ c, (Vuecore.idNoEmoji (some idv) text).head? = some c →
      Vuecore.isJsWs c = false ∧ c ≠ '-') ∧
    (∀ c, (Vuecore.idNoEmoji (some idv) text).getLast? = some c →
      Vuecore.isJsWs c = false ∧ c ≠ '-') ∧
    (Vuecore.trimWsHyphen (Vuecore.stripEmoji idv) = [] →
      String.mk ('#' :: Vuecore.idNoEmoji (some idv) text) = "#") ∧
    Vuecore.idNoEmoji none text =
      Vuecore.hyphenateWs (Vuecore.lowerList text) ∧
    Vuecore.idNoEmoji (some []) text =
      Vuecore.hyphenateWs (Vuecore.lowerList text) := by
  have hform : Vuecore.idNoEmoji (some idv) text =
      Vuecore.trimWsHyphen (Vuecore.stripEmoji idv) := by
    rw [Vuecore.idNoEmoji]
    rw [if_neg (by simpa [List.isEmpty_iff] using hne)]
  refine ⟨hform, ?_, ?_, ?_, ?_, rfl, rfl⟩
  · intro c hc
    rw [hform, Vuecore.trimWsHyphen] at hc
    exact Vuecore.stripEmoji_no_emoji (Vuecore.trimBy_subset hc)
  · intro c hc
    rw [hform, Vuecore.trimWsHyphen] at hc
    have := Vuecore.trimBy_head hc
    simp only [Bool.or_eq_false_iff] at this
    exact ⟨this.1, by simpa using this.2⟩
  · intro c hc
    rw [hform, Vuecore.trimWsHyphen] at hc
    have := Vuecore.trimBy_last hc
    simp only [Bool.or_eq_false_iff] at this
    exact ⟨this.1, by simpa using this.2⟩
  · intro hempty
    rw [hform, hempty]

/-- C2 witness: the authored id `"-a😀b "` strips its emoji and trims to
`"a😀b"`-without-the-emoji — concretely `"ab"` — which carries no emoji
and no boundary whitespace or hyphen; an absent id on text `"My T"`
gives `"my-t"`. -/
theorem C2_witness :
    (("-a😀b " : String).data ≠ []) ∧
    (Vuecore.idNoEmoji (some ("-a😀b " : String).data) ("T" : String).data =
        Vuecore.trimWsHyphen (Vuecore.stripEmoji ("-a😀b " : String).data) ∧
      (∀ c ∈ Vuecore.idNoEmoji (some ("-a😀b " : String).data) ("T" : String).data,
        Vuecore.isEmojiChar c = false) ∧
      (∀ c, (Vuecore.idNoEmoji (some ("-a😀b " : String).data)
          ("T" : String).data).head? = some c →
        Vuecore.isJsWs c = false ∧ c ≠ '-') ∧
      (∀ c, (Vuecore.idNoEmoji (some ("-a😀b " : String).data)
          ("T" : String).data).getLast? = some c →
        Vuecore.isJsWs c = false ∧ c ≠ '-') ∧
      (Vuecore.trimWsHyphen (Vuecore.stripEmoji ("-a😀b " : String).data) = [] →
        String.mk ('#' :: Vuecore.idNoEmoji (some ("-a😀b " : String).data)
          ("T" : String).data) = "#") ∧
      Vuecore.idNoEmoji none ("T" : String).data =
        Vuecore.hyphenateWs (Vuecore.lowerList ("T" : String).data) ∧
      Vuecore.idNoEmoji (some []) ("T" : String).data =
        Vuecore.hyphenateWs (Vuecore.lowerList ("T" : String).data)) :=
  ⟨by decide, C2_amended_heading_id ("-a😀b " : String).data ("T" : String).data
    (by decide)⟩

/-- C5 counterexample: on empty raw input the conversion does return
the empty html string and no anchors, but the external parser IS
invoked — the `parse(...)` call precedes the emptiness test, so the
invocation list is `[""]`, not `[]` as the claim's "the parser is not
run on that input" demands. -/
theorem C5_counterexample :
    Vuecore.getHtmlStrInstr (fun _ => "<p>boom</p>") "" =
      (some ("", []), [""]) ∧ ([""] : List String) ≠ [] := by
  exact ⟨rfl, by decide⟩

/-- C5 (amended): for empty raw input and any parser, the conversion
returns exactly the empty html and an empty anchor list, while the
parser is nonetheless invoked once — on the stripped empty input — and
its output is discarded. -/
theorem C5_amended_empty_input (parse : String → String) :
    Vuecore.getHtmlStrInstr parse "" = (some ("", []), [""]) ∧
    Vuecore.useMarked parse "" "doc.md" = (some ("", []), true, [""]) := by
  exact ⟨rfl, rfl⟩

/-- C6 counterexample: for the name hint `"doc.md"`, the code derives
the language `"md"` (the token after the last dot), not `"doc"` (the
substring before the first dot) as the claim reads. -/
theorem C6_counterexample :
    Vuecore.useMarkedLang "doc.md" = "md" ∧
    Vuecore.langClaimC6 "doc.md" = "doc" ∧
    ("md" : String) ≠ "doc" := by
  exact ⟨by decide, by decide, by decide⟩

/-- C6 (amended): for every name hint, the derived lang is the
'.'-delimited extension token after the last dot (empty when there is
none), with the first occurrence of `vue` replaced by `html`;
`isMarkdown` is true iff lang case-insensitively equals `md`; and when
it is false the raw text is wrapped verbatim in a single fenced code
block tagged with lang before parsing. -/
theorem C6_amended_lang_derivation (value title : String)
    (parse : String → String) :
    Vuecore.useMarkedLang title =
      String.mk (Vuecore.replaceFirstStr ("vue" : String).data
        ("html" : String).data (Vuecore.extAfterLastDot title).data) ∧
    (Vuecore.useMarked parse value title).2.1 =
      Vuecore.isMdLang (Vuecore.useMarkedLang title) ∧
    Vuecore.mdInput value title =
      (if Vuecore.isMdLang (Vuecore.useMarkedLang title) then value
       else "```" ++ Vuecore.useMarkedLang title ++ "\n" ++ value ++ "\n```") := by
  refine ⟨?_, rfl, rfl⟩
  rw [Vuecore.useMarkedLang, Vuecore.jsExtMatch_snd_eq]

/-- C8 counterexample: for the attribute string `id="a"` — a
pre-existing id with a one-character value — the code's rewrite keeps
it (the pattern `([^"]+)[^"]` needs a two-character value), while the
claim demands its removal; the rebuilt tag then carries two id
attributes. -/
theorem C8_counterexample :
    Vuecore.removeLeadingIdAttr ("id=\"a\"" : String).data =
      ("id=\"a\"" : String).data ∧
    Vuecore.removeIdAttrClaim ("id=\"a\"" : String).data = [] ∧
    ("id=\"a\"" : String).data ≠ ([] : List Char) := by
  exact ⟨by decide, by decide, by decide⟩

/-- C8 (amended): the rebuilt opening tag removes a pre-existing id
attribute only when it stands at the very start of the attribute string
with a properly quoted value of at least two characters — any other
attribute text, id occurrences included, survives unchanged — and the
surviving attributes are emitted verbatim followed by the canonical id
and the fixed class `ant-typography`. -/
theorem C8_amended_attr_rewrite (d : Char) (attrs idv text : List Char) :
    Vuecore.removeLeadingIdAttr attrs = Vuecore.removeLeadingIdAttrSpec attrs ∧
    ∃ tail, Vuecore.headingTemplate d (Vuecore.removeLeadingIdAttr attrs) idv text =
      ['<', 'h', d, ' '] ++ Vuecore.removeLeadingIdAttr attrs ++
        (" id=\"" : String).data ++ idv ++
        ("\" class=\"ant-typography\">" : String).data ++ tail := by
  refine ⟨Vuecore.removeLeadingIdAttr_eq_spec attrs, ?_⟩
  refine ⟨("\n                    <a id=\"user-content-" : String).data ++ idv ++
    ("\" name=\"" : String).data ++ idv ++
    ("\" class=\"anchor\">\n                      <span data-type=\"anchor\" data-hash=\"#" : String).data ++
    idv ++
    ("\" class=\"iconfont icon-pin\"></span>\n                    </a>\n                    <span>" : String).data ++
    text ++ ("</span>\n                  </h" : String).data ++ [d] ++
    (">" : String).data, ?_⟩
  rw [Vuecore.headingTemplate]
  rw [show ("\" class=\"ant-typography\">\n                    <a id=\"user-content-" : String).data =
    ("\" class=\"ant-typography\">" : String).data ++
      ("\n                    <a id=\"user-content-" : String).data from by decide]
  set_option maxRecDepth 4000 in
  simp only [List.append_assoc, List.cons_append, List.nil_append]

/-- C9 counterexample: on the infostring `"ts,"` (tokens `["ts", ""]`),
the code's class list is `"language-ts language-"` — the empty token is
prefixed too — while the claim's reading (only non-empty tokens
prefixed) gives `"language-ts"`. -/
theorem C9_counterexample :
    Vuecore.langsPrefix "ts," = "language-ts language-" ∧
    Vuecore.langsPrefixClaim "ts," = "language-ts" ∧
    ("language-ts language-" : String) ≠ "language-ts" := by
  refine ⟨by decide, by decide, by decide⟩

/-- C9 (amended): splitting the infostring on commas, if there is exactly
one token and it is blank or whitespace-only the class list is
`language-none`; otherwise every token — the empty ones included — is
prefixed with `language-`; the class list joined by spaces is applied to
both the `pre` and the `code` wrapper of the rendered fragment. -/
theorem C9_amended_language_classes (known : String → Bool)
    (highlight : String → String → String → String) (code infostring : String) :
    Vuecore.langsPrefix infostring = Vuecore.langsPrefixAmended infostring ∧
    ∃ pre post : List Char,
      (Vuecore.renderCode known highlight code infostring).data =
        pre ++ ("<pre class=\"line-numbers " ++ Vuecore.langsPrefix infostring ++
          "\"><code class=\"" ++ Vuecore.langsPrefix infostring ++ "\">").data ++ post := by
  refine ⟨Vuecore.langsPrefix_eq_amended infostring, ?_⟩
  by_cases h : ¬Vuecore.filterTruthy (Vuecore.splitLangs infostring) = [] ∧
      known ((Vuecore.splitLangs infostring).head?.getD "") = true
  · exact ⟨("\n      <div class=\"code_wrap\">\n        <button data-type=\"copy\">copy</button>\n        ").data,
      ("\n          " ++
        (highlight code ((Vuecore.splitLangs infostring).head?.getD "") infostring ++
          Vuecore.lineNumbersWrapper code) ++
        "\n        </code></pre>\n      </div>").data,
      by simp [Vuecore.renderCode, h]⟩
  · exact ⟨("\n      <div class=\"code_wrap\">\n        <button data-type=\"copy\">copy</button>\n        ").data,
      ("\n          " ++ (code ++ Vuecore.lineNumbersWrapper code) ++
        "\n        </code></pre>\n      </div>").data,
      by simp [Vuecore.renderCode, h]⟩
